import Mathlib

/-!
Verification of the patch-and-repair pipeline of `jarvis-native`: four
Python scripts (`add_hitslop.py`, `fix_all_imports.py`, `fix_imports.py`,
`fix_arrow_functions.py`) that rewrite TypeScript source text.  Each
pass is shallowly embedded as a function on `List Char` (file content),
with Python's line splitting, `str.strip`, substring tests and the
concrete regular expressions of the scripts modelled executably.
Paths are modelled as lists of path components (the scripts run on a
POSIX tree rooted at `/mnt/d/claude dash/jarvis-native`).
-/

namespace Jarvis

/-! ## Python string primitives -/

/-- Python's `\s` / `str.strip` whitespace set (ASCII): space, tab,
newline, carriage return, form feed, vertical tab. -/
def isPyWS (c : Char) : Bool :=
  c == ' ' || c == '\t' || c == '\n' || c == '\r' || c == '\x0c' || c == '\x0b'

/-- Python's `\w` on ASCII text: letters, digits, underscore. -/
def isPyWord (c : Char) : Bool :=
  c.isAlphanum || c == '_'

/-- Python `str.strip()`: remove leading and trailing whitespace. -/
def pyStrip (l : List Char) : List Char :=
  ((l.dropWhile isPyWS).reverse.dropWhile isPyWS).reverse

/-- Python `str.startswith(p)`. -/
def startsWith (p l : List Char) : Bool :=
  p.isPrefixOf l

/-- Python's `needle in haystack` substring test. -/
def containsSub (n : List Char) : List Char → Bool
  | [] => n.isPrefixOf []
  | c :: t => n.isPrefixOf (c :: t) || containsSub n t

/-- Python `content.split('\n')` (keeps empty pieces; `""` gives `[""]`). -/
def splitNl : List Char → List (List Char)
  | [] => [[]]
  | c :: t =>
    if c = '\n' then [] :: splitNl t
    else
      match splitNl t with
      | l :: ls => (c :: l) :: ls
      | [] => [[c]]

/-- Python `'\n'.join(lines)`. -/
def joinNl : List (List Char) → List Char
  | [] => []
  | [l] => l
  | l :: ls => l ++ '\n' :: joinNl ls

/-- Python `list.insert(n, x)` (clamps past the end). -/
def insertAt (n : Nat) (x : α) : List α → List α
  | [] => [x]
  | a :: t =>
    match n with
    | 0 => x :: a :: t
    | n + 1 => a :: insertAt n x t

/-- Python `str.replace(pat, rep)`: replace every non-overlapping
occurrence, scanning left to right (`pat` nonempty in all uses;
the fuel bounds the scan by the input length). -/
def pyReplaceAux (pat rep : List Char) : Nat → List Char → List Char
  | 0, s => s
  | _ + 1, [] => []
  | fuel + 1, c :: t =>
    if pat ≠ [] && pat.isPrefixOf (c :: t) then
      rep ++ pyReplaceAux pat rep fuel ((c :: t).drop pat.length)
    else
      c :: pyReplaceAux pat rep fuel t

def pyReplace (pat rep s : List Char) : List Char :=
  pyReplaceAux pat rep (s.length + 1) s

end Jarvis

namespace Jarvis

/-! ## A backtracking matcher for the scripts' regular expressions

The three regexes of the repository are alternation-free sequences of
literals, greedy and lazy character classes, `?`-characters and capturing
group brackets, so a token-list matcher with ordered candidate lists
reproduces Python's backtracking exactly: greedy pieces offer their
longest consumption first, lazy pieces their shortest, and the first
candidate whose continuation succeeds wins. -/

namespace Re

/-- One token of a compiled pattern: a literal, a greedy `*` or `+` over a
character class, a lazy `*?`, an optional character `c?`, a single-character
class `[..]`, or a capture-group bracket. -/
inductive RTok where
  | lit : List Char → RTok
  | star : (Char → Bool) → RTok
  | plus : (Char → Bool) → RTok
  | lstar : (Char → Bool) → RTok
  | optc : Char → RTok
  | one : (Char → Bool) → RTok
  | gopen : Nat → RTok
  | gclose : Nat → RTok

/-- The rests a greedy `p*` can leave, longest consumption first. -/
def pRests (p : Char → Bool) : List Char → List (List Char)
  | [] => [[]]
  | c :: t => if p c then pRests p t ++ [c :: t] else [c :: t]

/-- The rests a greedy `p+` can leave (at least one character consumed). -/
def pRestsPlus (p : Char → Bool) : List Char → List (List Char)
  | [] => []
  | c :: t => if p c then pRests p t else []

/-- The rests `c?` can leave: consume the character first, then skip. -/
def optRests (c : Char) : List Char → List (List Char)
  | [] => [[]]
  | c' :: t => if c' = c then [t, c' :: t] else [c' :: t]

/-- First success over an ordered candidate list. -/
def firstSome : List α → (α → Option β) → Option β
  | [], _ => none
  | a :: l, f =>
    match f a with
    | some b => some b
    | none => firstSome l f

/-- Lookup in a `(group index, value)` association list. -/
def assocGet (l : List (Nat × List Char)) (i : Nat) : Option (List Char) :=
  match l.find? (fun p => p.1 == i) with
  | some p => some p.2
  | none => none

/-- Run a token list against `s`.  `pend` holds, for each open group, the
rest of the input at its opening bracket; `caps` the finished captures.
On success: the rest of the input after the match, and the captures. -/
def mrun : List RTok → List Char → List (Nat × List Char) →
    List (Nat × List Char) → Option (List Char × List (Nat × List Char))
  | [], s, _, caps => some (s, caps)
  | .lit l :: ts, s, pend, caps =>
    if l.isPrefixOf s then mrun ts (s.drop l.length) pend caps else none
  | .star p :: ts, s, pend, caps =>
    firstSome (pRests p s) fun r => mrun ts r pend caps
  | .plus p :: ts, s, pend, caps =>
    firstSome (pRestsPlus p s) fun r => mrun ts r pend caps
  | .lstar p :: ts, s, pend, caps =>
    firstSome (pRests p s).reverse fun r => mrun ts r pend caps
  | .optc c :: ts, s, pend, caps =>
    firstSome (optRests c s) fun r => mrun ts r pend caps
  | .one p :: ts, s, pend, caps =>
    match s with
    | [] => none
    | c :: t => if p c then mrun ts t pend caps else none
  | .gopen i :: ts, s, pend, caps => mrun ts s ((i, s) :: pend) caps
  | .gclose i :: ts, s, pend, caps =>
    match assocGet pend i with
    | some so => mrun ts s pend ((i, so.take (so.length - s.length)) :: caps)
    | none => none

/-- `match.group(i)` of a successful match (all groups of the repository's
patterns always participate). -/
def capGet (caps : List (Nat × List Char)) (i : Nat) : List Char :=
  (assocGet caps i).getD []

/-- Python `re.sub(pattern, repl, s)` with a replacement function: scan
left to right, at each position try the pattern; on a match emit the
replacement (which sees the captures and the whole match) and continue
after it.  The fuel bounds the scan by the input length (every pattern
of the repository consumes at least one character). -/
def subst (toks : List RTok)
    (repl : List (Nat × List Char) → List Char → List Char) :
    Nat → List Char → List Char
  | 0, s => s
  | fuel + 1, s =>
    match mrun toks s [] [] with
    | some (r, caps) =>
      let whole := s.take (s.length - r.length)
      repl caps whole ++ subst toks repl fuel r
    | none =>
      match s with
      | [] => []
      | c :: t => c :: subst toks repl fuel t

def reSub (toks : List RTok)
    (repl : List (Nat × List Char) → List Char → List Char)
    (s : List Char) : List Char :=
  subst toks repl (s.length + 1) s

/-- Whether the pattern matches anywhere in `s`. -/
def matchSomewhere (toks : List RTok) : List Char → Bool
  | [] => (mrun toks [] [] []).isSome
  | c :: t => (mrun toks (c :: t) [] []).isSome || matchSomewhere toks t

end Re

/-! ## The Declaration Repairer: `scripts/fix_imports.py`

Line-based pass: a `HIT_SLOP` import line directly after a line whose
strip starts with `import` or is exactly `{` is captured (one-slot,
later captures overwrite earlier ones) and dropped from its position;
afterwards the captured line, if any, is re-inserted after the last
remaining import line. -/

namespace FixImports

def markerLine : List Char := "import \x7b HIT_SLOP \x7d".toList

/-- The capture scan of `fix_file`'s first loop: walks the lines with the
original previous line at hand (`lines[i-1]`); `rest = []` encodes
`i = len(lines) - 1`, `prev = none` encodes `i = 0`.  Returns the kept
lines and the last captured line. -/
def scanLines (prev : Option (List Char)) :
    List (List Char) → List (List Char) × Option (List Char)
  | [] => ([], none)
  | l :: rest =>
    let misplaced :=
      containsSub markerLine l && !rest.isEmpty &&
        (match prev with
         | none => false
         | some pl =>
           startsWith "import".toList (pyStrip pl) || pyStrip pl == ['\x7b'])
    let out := scanLines (some l) rest
    if misplaced then
      (out.1, some (out.2.getD l))
    else
      (l :: out.1, out.2)

/-- The re-insertion scan of `fix_file`'s second loop: the index of the
last line whose strip starts with `import `, or which strips to a
`}`-line directly after a line whose strip starts with `import`. -/
def lastImportAnchor (prev : Option (List Char)) (i : Nat) :
    List (List Char) → Option Nat
  | [] => none
  | l :: rest =>
    let ok :=
      startsWith "import ".toList (pyStrip l) ||
        ((match prev with
          | none => false
          | some pl => startsWith "import".toList (pyStrip pl)) &&
          startsWith ['\x7d'] (pyStrip l))
    match lastImportAnchor (some l) (i + 1) rest with
    | some j => some j
    | none => if ok then some i else none

/-- Content transformation of `fix_imports.py`'s `fix_file` (the value the
file holds after the pass, whether or not it was rewritten). -/
def fix_file (c : List Char) : List Char :=
  if !containsSub markerLine c then c
  else
    let lines := splitNl c
    let scanned := scanLines none lines
    match scanned.2 with
    | none => joinNl scanned.1
    | some h =>
      match lastImportAnchor none 0 scanned.1 with
      | some j => joinNl (insertAt (j + 1) h scanned.1)
      | none => joinNl scanned.1

end FixImports

/-! ## The Import Repairer: `scripts/fix_all_imports.py`

One `re.sub` over the whole content with the pattern
`(import\s+\{)\s*\nimport\s+\{\s*HIT_SLOP\s*\}\s+from\s+['"]([^'"]+)['"];\s*\n(\s+[^}]+\n\}\s+from\s+['"][^'"]+['"];)`
and a replacement that re-orders the captured pieces. -/

namespace FixAllImports

def isQuote (c : Char) : Bool := c == '\'' || c == '"'

def toks : List Re.RTok :=
  [.gopen 1, .lit "import".toList, .plus isPyWS, .lit ['{'], .gclose 1,
   .star isPyWS, .lit ['\n'],
   .lit "import".toList, .plus isPyWS, .lit ['{'], .star isPyWS,
   .lit "HIT_SLOP".toList, .star isPyWS, .lit ['}'], .plus isPyWS,
   .lit "from".toList, .plus isPyWS,
   .one isQuote, .gopen 2, .plus (fun c => !isQuote c), .gclose 2,
   .one isQuote, .lit [';'],
   .star isPyWS, .lit ['\n'],
   .gopen 3, .plus isPyWS, .plus (fun c => !(c == '}')), .lit ['\n', '}'],
   .plus isPyWS, .lit "from".toList, .plus isPyWS,
   .one isQuote, .plus (fun c => !isQuote c), .one isQuote, .lit [';'],
   .gclose 3]

/-- The replacement function `fix_import` of the script. -/
def fix_import (caps : List (Nat × List Char)) (_ : List Char) : List Char :=
  Re.capGet caps 1 ++ '\n' :: Re.capGet caps 3 ++
    '\n' :: "import \x7b HIT_SLOP \x7d from '".toList ++
    Re.capGet caps 2 ++ "';".toList

/-- Content transformation of `fix_all_imports.py`'s `fix_file`. -/
def fix_file (c : List Char) : List Char :=
  Re.reSub toks fix_import c

end FixAllImports

/-! ## The Callback Repairer: `scripts/fix_arrow_functions.py`

One `re.sub` with the pattern
`(\w+)=\{\(\)\s*=\s*\n\s+hitSlop=\{HIT_SLOP\}>\s*([^}]+)\}`
reassembling a truncated inline callback. -/

namespace FixArrowFunctions

def toks : List Re.RTok :=
  [.gopen 1, .plus isPyWord, .gclose 1,
   .lit "=\x7b()".toList, .star isPyWS, .lit ['='], .star isPyWS,
   .lit ['\n'], .plus isPyWS,
   .lit "hitSlop=\x7bHIT_SLOP\x7d>".toList, .star isPyWS,
   .gopen 2, .plus (fun c => !(c == '}')), .gclose 2, .lit ['}']]

/-- The replacement function `fix_arrow` of the script. -/
def fix_arrow (caps : List (Nat × List Char)) (_ : List Char) : List Char :=
  Re.capGet caps 1 ++ "=\x7b() => ".toList ++ pyStrip (Re.capGet caps 2) ++
    "\x7d\n                hitSlop=\x7bHIT_SLOP\x7d".toList

/-- Content transformation of `fix_arrow_functions.py`'s `fix_file`. -/
def fix_file (c : List Char) : List Char :=
  Re.reSub toks fix_arrow c

end FixArrowFunctions

/-! ## The Injector: `scripts/add_hitslop.py`

Eligibility by substring tests, an import statement inserted after the
last import line (computed from the file's directory), and a `re.sub` with
the pattern `(<IconButton[^>]*?)(/?>)` (DOTALL) adding the marker
attribute before each matched tag's closing delimiter. -/

namespace AddHitslop

/-- `SRC_DIR = Path("/mnt/d/claude dash/jarvis-native/src")` as components. -/
def SRC_DIR : List String := ["mnt", "d", "claude dash", "jarvis-native", "src"]

def SKIP_FILES : List String :=
  ["src/components/ProjectCard.tsx",
   "src/components/ui/SearchBar.tsx",
   "src/screens/main/HabitsScreen.tsx",
   "src/screens/main/TasksScreen.tsx",
   "src/components/BudgetCard.tsx",
   "src/components/BudgetFormModal.tsx"]

/-- `os.path.relpath(target, start)` on component lists of absolute,
normalised POSIX paths: drop the common prefix, then one `..` per
remaining start component. -/
def relpathComps : List String → List String → List String
  | t :: ts, s :: ss =>
    if t = s then relpathComps ts ss
    else List.replicate (s :: ss).length ".." ++ (t :: ts)
  | ts, ss => List.replicate ss.length ".." ++ ts

def relpath (target start : List String) : List String :=
  let r := relpathComps target start
  if r.isEmpty then ["."] else r

def joinSlash (comps : List String) : List Char :=
  (String.intercalate "/" comps).toList

/-- `get_relative_import(file_path)`: relative path from the file's
directory to `constants/ui.ts`, `.ts` removed, backslashes normalised,
forced to start with a dot. -/
def get_relative_import (filePath : List String) : List Char :=
  let rel := joinSlash (relpath (SRC_DIR ++ ["constants", "ui.ts"]) filePath.dropLast)
  let rel := pyReplace ".ts".toList [] rel
  let rel := pyReplace ['\\'] ['/'] rel
  if startsWith ['.'] rel then rel else '.' :: '/' :: rel

/-- The inserted `import_statement`. -/
def importStmt (filePath : List String) : List Char :=
  "import \x7b HIT_SLOP \x7d from '".toList ++ get_relative_import filePath ++
    "';".toList

/-- Index of the last line whose strip starts with `import `. -/
def lastImportLine : List (List Char) → Option Nat
  | [] => none
  | l :: rest =>
    match lastImportLine rest with
    | some j => some (j + 1)
    | none =>
      if startsWith "import ".toList (pyStrip l) then some 0 else none

def iconButtonMark : List Char := "IconButton".toList

def paperMark : List Char := "react-native-paper".toList

def hitSlopMark : List Char := "HIT_SLOP".toList

def hitSlopAttr : List Char := "hitSlop".toList

/-- The class `[^>]` of the tag pattern. -/
def notGt (c : Char) : Bool := !(c == '>')

/-- The tag pattern `(<IconButton[^>]*?)(/?>)`. -/
def tagToks : List Re.RTok :=
  [.gopen 1, .lit "<IconButton".toList, .lstar notGt, .gclose 1,
   .gopen 2, .optc '/', .lit ['>'], .gclose 2]

/-- The marker attribute text inserted before a closing delimiter. -/
def hitSlopIns : List Char :=
  "\n                hitSlop=\x7bHIT_SLOP\x7d".toList

/-- The replacement function `add_hitslop` of the script: keep a tag
(group 1) that already mentions `hitSlop`, otherwise insert the marker
attribute before the closing delimiter (group 2). -/
def add_hitslop (caps : List (Nat × List Char)) (whole : List Char) : List Char :=
  if containsSub hitSlopAttr (Re.capGet caps 1) then whole
  else Re.capGet caps 1 ++ hitSlopIns ++ Re.capGet caps 2

/-- The tag substitution pass over the whole content. -/
def subIconButtons (c : List Char) : List Char :=
  Re.reSub tagToks add_hitslop c

/-- What `process_file` reports for a file. -/
inductive Report where
  | ineligible
  | skipAlreadyPatched
  | modified
  | eligibleUnmodified
deriving DecidableEq

/-- `process_file(file_path)` as a function of the file's path and
content: the report, and the content the file holds afterwards (written
back only in the `modified` case, byte-identical otherwise). -/
def process_file (filePath : List String) (c : List Char) :
    Report × List Char :=
  if !(containsSub iconButtonMark c && containsSub paperMark c) then
    (.ineligible, c)
  else if containsSub hitSlopMark c then (.skipAlreadyPatched, c)
  else
    match lastImportLine (splitNl c) with
    | some k =>
      let c1 := joinNl (insertAt (k + 1) (importStmt filePath) (splitNl c))
      (.modified, subIconButtons c1)
    | none =>
      let c2 := subIconButtons c
      if c2 = c then (.eligibleUnmodified, c) else (.modified, c2)

/-- The Injector's content transformation. -/
def injector (filePath : List String) (c : List Char) : List Char :=
  (process_file filePath c).2

/-- One file of `main`'s walk: a file whose path relative to the project
root is in the skip list is not processed at all. -/
def mainStep (relComps : List String) (c : List Char) : List Char :=
  if String.intercalate "/" relComps ∈ SKIP_FILES then c
  else injector (SRC_DIR.dropLast ++ relComps) c

end AddHitslop

/-! ## Substring lemmas -/

theorem containsSub_spec {n h : List Char} :
    containsSub n h = true ↔ n <:+: h := by
  induction h with
  | nil => simp [containsSub]
  | cons c t ih =>
    simp [containsSub, Bool.or_eq_true, ih, List.infix_cons_iff]

theorem containsSub_mono {n m h : List Char}
    (h1 : containsSub n m = true) (h2 : m <:+: h) : containsSub n h = true :=
  containsSub_spec.2 ((containsSub_spec.1 h1).trans h2)

theorem containsSub_append_left {n a : List Char} (b : List Char)
    (h : containsSub n a = true) : containsSub n (a ++ b) = true :=
  containsSub_mono h (a.prefix_append b).isInfix

theorem containsSub_append_right {n b : List Char} (a : List Char)
    (h : containsSub n b = true) : containsSub n (a ++ b) = true :=
  containsSub_mono h (List.suffix_append a b).isInfix

theorem containsSub_cons {n t : List Char} (c : Char)
    (h : containsSub n t = true) : containsSub n (c :: t) = true :=
  containsSub_mono h (List.suffix_cons c t).isInfix

/-- A line of the list is an infix of the joined content. -/
theorem infix_joinNl {x : List Char} : ∀ {ls : List (List Char)},
    x ∈ ls → x <:+: joinNl ls := by
  intro ls
  induction ls with
  | nil => intro hx; cases hx
  | cons a t ih =>
    intro hx
    cases t with
    | nil =>
      cases hx with
      | head => exact List.infix_refl _
      | tail _ h => cases h
    | cons b t' =>
      rcases List.mem_cons.1 hx with rfl | hmem
      · exact (x.prefix_append ('\n' :: joinNl (b :: t'))).isInfix
      · exact (ih hmem).trans
          (((List.suffix_cons '\n' _).trans (List.suffix_append a _)).isInfix)

theorem mem_insertAt (x : α) : ∀ (n : Nat) (l : List α), x ∈ insertAt n x l := by
  intro n l
  induction l generalizing n with
  | nil => simp [insertAt]
  | cons a t ih =>
    cases n with
    | zero => simp [insertAt]
    | succ m => simpa [insertAt] using Or.inr (ih m)

/-! ## Matcher invariants -/

namespace Re

theorem firstSome_eq_some {l : List α} {f : α → Option β} {b : β}
    (h : firstSome l f = some b) : ∃ a ∈ l, f a = some b := by
  induction l with
  | nil => simp [firstSome] at h
  | cons a t ih =>
    rw [firstSome] at h
    cases hfa : f a with
    | some b' => rw [hfa] at h; exact ⟨a, List.mem_cons_self a t, hfa.trans h⟩
    | none =>
      rw [hfa] at h
      obtain ⟨x, hx, hfx⟩ := ih h
      exact ⟨x, List.mem_cons_of_mem a hx, hfx⟩

theorem pRests_suffix {p : Char → Bool} : ∀ {s r : List Char},
    r ∈ pRests p s → r <:+ s := by
  intro s
  induction s with
  | nil => intro r hr; simp [pRests] at hr; simp [hr]
  | cons c t ih =>
    intro r hr
    rw [pRests] at hr
    split at hr
    · rcases List.mem_append.1 hr with h1 | h2
      · exact (ih h1).trans (List.suffix_cons c t)
      · simp at h2; simp [h2]
    · simp at hr; simp [hr]

theorem pRestsPlus_suffix {p : Char → Bool} {s r : List Char}
    (h : r ∈ pRestsPlus p s) : r <:+ s := by
  cases s with
  | nil => simp [pRestsPlus] at h
  | cons c t =>
    rw [pRestsPlus] at h
    split at h
    · exact (pRests_suffix h).trans (List.suffix_cons c t)
    · simp at h

theorem optRests_suffix {c : Char} {s r : List Char}
    (h : r ∈ optRests c s) : r <:+ s := by
  cases s with
  | nil => simp [optRests] at h; simp [h]
  | cons c' t =>
    rw [optRests] at h
    split at h
    · rcases List.mem_cons.1 h with rfl | h2
      · exact List.suffix_cons _ _
      · simp at h2; simp [h2]
    · simp at h; simp [h]

/-- A successful run leaves a suffix of its input. -/
theorem mrun_suffix : ∀ {ts : List RTok} {s : List Char}
    {pend caps : List (Nat × List Char)} {r : List Char}
    {caps2 : List (Nat × List Char)},
    mrun ts s pend caps = some (r, caps2) → r <:+ s := by
  intro ts
  induction ts with
  | nil => intro s pend caps r caps2 h; rw [mrun] at h; cases h; exact List.suffix_rfl
  | cons tok ts ih =>
    intro s pend caps r caps2 h
    cases tok with
    | lit l =>
      rw [mrun] at h
      split at h
      · exact (ih h).trans (List.drop_suffix _ _)
      · cases h
    | star p =>
      rw [mrun] at h
      obtain ⟨a, ha, hfa⟩ := firstSome_eq_some h
      exact (ih hfa).trans (pRests_suffix ha)
    | plus p =>
      rw [mrun] at h
      obtain ⟨a, ha, hfa⟩ := firstSome_eq_some h
      exact (ih hfa).trans (pRestsPlus_suffix ha)
    | lstar p =>
      rw [mrun] at h
      obtain ⟨a, ha, hfa⟩ := firstSome_eq_some h
      exact (ih hfa).trans (pRests_suffix (List.mem_reverse.1 ha))
    | optc c =>
      rw [mrun] at h
      obtain ⟨a, ha, hfa⟩ := firstSome_eq_some h
      exact (ih hfa).trans (optRests_suffix ha)
    | one p =>
      cases s with
      | nil => rw [mrun] at h; cases h
      | cons c t =>
        rw [mrun] at h
        split at h
        · exact (ih h).trans (List.suffix_cons c t)
        · cases h
    | gopen i => rw [mrun] at h; exact ih h
    | gclose i =>
      rw [mrun] at h
      cases hget : assocGet pend i with
      | some so => rw [hget] at h; exact ih h
      | none => rw [hget] at h; cases h

/-- The consumed prefix and the rest reassemble the input. -/
theorem take_sub_append {s r : List Char} (h : r <:+ s) :
    s.take (s.length - r.length) ++ r = s := by
  obtain ⟨w, rfl⟩ := h
  have hl : (w ++ r).length - r.length = w.length := by
    simp [List.length_append]
  rw [hl, List.take_left]

theorem subst_some {toks : List RTok}
    {repl : List (Nat × List Char) → List Char → List Char} (fuel : Nat)
    {s r : List Char} {caps : List (Nat × List Char)}
    (h : mrun toks s [] [] = some (r, caps)) :
    subst toks repl (fuel + 1) s =
      repl caps (s.take (s.length - r.length)) ++ subst toks repl fuel r := by
  rw [subst.eq_def]
  simp [h]

theorem subst_none_cons {toks : List RTok}
    {repl : List (Nat × List Char) → List Char → List Char} (fuel : Nat)
    {c : Char} {t : List Char}
    (h : mrun toks (c :: t) [] [] = none) :
    subst toks repl (fuel + 1) (c :: t) = c :: subst toks repl fuel t := by
  rw [subst.eq_def]
  simp [h]

theorem subst_nil {toks : List RTok}
    {repl : List (Nat × List Char) → List Char → List Char}
    (h : mrun toks [] [] [] = none) :
    ∀ fuel, subst toks repl fuel [] = [] := by
  intro fuel
  cases fuel with
  | zero => rw [subst]
  | succ n => rw [subst.eq_def]; simp [h]

/-- A pattern that matches nowhere leaves the content unchanged. -/
theorem subst_no_match {toks : List RTok}
    {repl : List (Nat × List Char) → List Char → List Char} :
    ∀ (fuel : Nat) (s : List Char), matchSomewhere toks s = false →
    subst toks repl fuel s = s := by
  intro fuel
  induction fuel with
  | zero => intro s _; rw [subst]
  | succ n ih =>
    intro s h
    cases s with
    | nil =>
      rw [matchSomewhere] at h
      exact subst_nil (Option.not_isSome_iff_eq_none.1 (by simp [h])) (n + 1)
    | cons c t =>
      rw [matchSomewhere, Bool.or_eq_false_iff] at h
      have hm : mrun toks (c :: t) [] [] = none :=
        Option.not_isSome_iff_eq_none.1 (by simp [h.1])
      rw [subst_none_cons n hm, ih t h.2]

theorem reSub_no_match {toks : List RTok}
    {repl : List (Nat × List Char) → List Char → List Char}
    {s : List Char} (h : matchSomewhere toks s = false) :
    reSub toks repl s = s :=
  subst_no_match _ s h

/-! ### Step lemmas for evaluating the matcher on structured input -/

theorem mrun_lit_of {l s u : List Char} {ts : List RTok}
    {pend caps : List (Nat × List Char)} {v : List Char × List (Nat × List Char)}
    (he : u = l ++ s) (hv : mrun ts s pend caps = some v) :
    mrun (.lit l :: ts) u pend caps = some v := by
  subst he
  rw [mrun]
  have hp : l.isPrefixOf (l ++ s) = true := by
    rw [List.isPrefixOf_iff_prefix]; exact l.prefix_append s
  rw [if_pos hp, List.drop_left]
  exact hv

theorem mrun_one_of {p : Char → Bool} {c : Char} {s u : List Char}
    {ts : List RTok} {pend caps : List (Nat × List Char)}
    {v : List Char × List (Nat × List Char)}
    (he : u = c :: s) (hc : p c = true) (hv : mrun ts s pend caps = some v) :
    mrun (.one p :: ts) u pend caps = some v := by
  subst he
  rw [mrun, if_pos hc]
  exact hv

theorem mrun_gopen_of {i : Nat} {s : List Char} {ts : List RTok}
    {pend caps : List (Nat × List Char)} {v : List Char × List (Nat × List Char)}
    (hv : mrun ts s ((i, s) :: pend) caps = some v) :
    mrun (.gopen i :: ts) s pend caps = some v := by
  rw [mrun]; exact hv

theorem mrun_gclose_of {i : Nat} {x s : List Char} {ts : List RTok}
    {pend caps : List (Nat × List Char)} {v : List Char × List (Nat × List Char)}
    (hg : assocGet pend i = some (x ++ s))
    (hv : mrun ts s pend ((i, x) :: caps) = some v) :
    mrun (.gclose i :: ts) s pend caps = some v := by
  rw [mrun, hg]
  have hx : (x ++ s).take ((x ++ s).length - s.length) = x := by
    have hl : (x ++ s).length - s.length = x.length := by
      simp [List.length_append]
    rw [hl, List.take_left]
  show mrun ts s pend ((i, (x ++ s).take ((x ++ s).length - s.length)) :: caps) =
    some v
  rw [hx]
  exact hv

theorem mrun_optc_of {c : Char} {s u : List Char} {ts : List RTok}
    {pend caps : List (Nat × List Char)} {v : List Char × List (Nat × List Char)}
    (he : u = c :: s) (hv : mrun ts s pend caps = some v) :
    mrun (.optc c :: ts) u pend caps = some v := by
  subst he
  rw [mrun, optRests, if_pos rfl, firstSome, hv]

theorem mrun_optc_skip_of {c a : Char} {s u : List Char} {ts : List RTok}
    {pend caps : List (Nat × List Char)} {v : List Char × List (Nat × List Char)}
    (he : u = a :: s) (ha : a ≠ c) (hv : mrun ts (a :: s) pend caps = some v) :
    mrun (.optc c :: ts) u pend caps = some v := by
  subst he
  rw [mrun, optRests, if_neg ha, firstSome, hv]

theorem mrun_gclose_nil_of {i : Nat} {ts : List RTok}
    {pend caps : List (Nat × List Char)} {so : List Char}
    {v : List Char × List (Nat × List Char)}
    (hg : assocGet pend i = some so)
    (hv : mrun ts [] pend ((i, so) :: caps) = some v) :
    mrun (.gclose i :: ts) [] pend caps = some v := by
  rw [mrun, hg]
  show mrun ts [] pend
    ((i, so.take (so.length - List.length ([] : List Char))) :: caps) = some v
  rw [List.length_nil, Nat.sub_zero, List.take_length]
  exact hv

/-- The candidate list of a greedy class run followed by a character the
class rejects: the maximal-consumption rest first, then the rests that
put back ever longer nonempty suffixes of the run (`sufTails`, shortest
suffix first). -/
def sufTails (r : List Char) : List Char → List (List Char)
  | [] => []
  | a :: t => sufTails r t ++ [a :: (t ++ r)]

theorem pRests_run {p : Char → Bool} {c : Char} :
    ∀ {q : List Char} (t : List Char), q.all p = true → p c = false →
    pRests p (q ++ c :: t) = (c :: t) :: sufTails (c :: t) q := by
  intro q
  induction q with
  | nil => intro t _ hc; simp [pRests, sufTails, hc]
  | cons a q' ih =>
    intro t hq hc
    rw [List.all_cons, Bool.and_eq_true] at hq
    rw [List.cons_append, pRests, if_pos hq.1, ih t hq.2 hc, sufTails]
    rfl

theorem sufTails_mem {r : List Char} : ∀ {q y : List Char},
    y ∈ sufTails r q → ∃ a t2, y = a :: t2 ∧ a ∈ q := by
  intro q
  induction q with
  | nil => intro y hy; simp [sufTails] at hy
  | cons a t ih =>
    intro y hy
    rw [sufTails] at hy
    rcases List.mem_append.1 hy with h1 | h2
    · obtain ⟨b, t2, rfl, hb⟩ := ih h1
      exact ⟨b, t2, rfl, List.mem_cons_of_mem a hb⟩
    · simp at h2
      exact ⟨a, t ++ r, h2, List.mem_cons_self a t⟩

theorem sufTails_snoc (r : List Char) (z : Char) : ∀ (q : List Char),
    sufTails r (q ++ [z]) = (z :: r) :: sufTails (z :: r) q := by
  intro q
  induction q with
  | nil => simp [sufTails]
  | cons a q' ih =>
    rw [List.cons_append, sufTails, ih, sufTails]
    simp [List.append_assoc]

theorem firstSome_cons_some {f : α → Option β} {a : α} {l : List α} {b : β}
    (h : f a = some b) : firstSome (a :: l) f = some b := by
  rw [firstSome, h]

theorem firstSome_cons_none {f : α → Option β} {a : α} {l : List α}
    (h : f a = none) : firstSome (a :: l) f = firstSome l f := by
  rw [firstSome, h]

theorem firstSome_append_none {f : α → Option β} {l1 l2 : List α}
    (h : ∀ a ∈ l1, f a = none) : firstSome (l1 ++ l2) f = firstSome l2 f := by
  induction l1 with
  | nil => rfl
  | cons a t ih =>
    rw [List.cons_append, firstSome, h a (List.mem_cons_self a t),
      ih fun b hb => h b (List.mem_cons_of_mem a hb)]

/-- Greedy `p*` whose run is delimited by a rejected character: when the
continuation succeeds on the maximal-consumption rest, so does the token. -/
theorem mrun_star_of {p : Char → Bool} {q : List Char} {c : Char}
    {t u : List Char} {ts : List RTok} {pend caps : List (Nat × List Char)}
    {v : List Char × List (Nat × List Char)}
    (he : u = q ++ c :: t) (hq : q.all p = true) (hc : p c = false)
    (hv : mrun ts (c :: t) pend caps = some v) :
    mrun (.star p :: ts) u pend caps = some v := by
  subst he
  rw [mrun, pRests_run t hq hc]
  exact firstSome_cons_some hv

/-- Greedy `p+`, same situation (the run must be nonempty). -/
theorem mrun_plus_of {p : Char → Bool} {q : List Char} {c : Char}
    {t u : List Char} {ts : List RTok} {pend caps : List (Nat × List Char)}
    {v : List Char × List (Nat × List Char)}
    (he : u = q ++ c :: t) (hq : q.all p = true) (hne : q ≠ [])
    (hc : p c = false) (hv : mrun ts (c :: t) pend caps = some v) :
    mrun (.plus p :: ts) u pend caps = some v := by
  subst he
  cases q with
  | nil => exact absurd rfl hne
  | cons a q' =>
    rw [List.all_cons, Bool.and_eq_true] at hq
    rw [List.cons_append, mrun, pRestsPlus, if_pos hq.1, pRests_run t hq.2 hc]
    exact firstSome_cons_some hv

theorem singleton_isPrefixOf (c a : Char) (y : List Char) :
    [c].isPrefixOf (a :: y) = (c == a) := by
  simp [List.isPrefixOf]

/-- The composite `\s*\n` standing before a non-whitespace character: the
greedy run backtracks all the way, the literal takes the leading newline
(the run after the newline must itself be newline-free whitespace). -/
theorem mrun_star_nl_of {ind : List Char} {c : Char} {t u : List Char}
    {ts : List RTok} {pend caps : List (Nat × List Char)}
    {v : List Char × List (Nat × List Char)}
    (he : u = '\n' :: (ind ++ c :: t))
    (h1 : ind.all isPyWS = true) (h2 : ind.all (fun x => !(x == '\n')) = true)
    (h3 : isPyWS c = false)
    (hv : mrun ts (ind ++ c :: t) pend caps = some v) :
    mrun (.star isPyWS :: .lit ['\n'] :: ts) u pend caps = some v := by
  subst he
  have hq : ('\n' :: ind).all isPyWS = true := by
    rw [List.all_cons, Bool.and_eq_true]
    exact ⟨by decide, h1⟩
  have hsh : pRests isPyWS ('\n' :: (ind ++ c :: t)) =
      (c :: t) :: sufTails (c :: t) ('\n' :: ind) := by
    have := pRests_run (q := '\n' :: ind) (p := isPyWS) t hq h3
    rw [List.cons_append] at this
    exact this
  rw [mrun, hsh, sufTails]
  have hfail1 : mrun (.lit ['\n'] :: ts) (c :: t) pend caps = none := by
    have hne : ('\n' == c) = false := by
      refine beq_eq_false_iff_ne.2 fun hcc => ?_
      rw [← hcc] at h3
      exact absurd h3 (by decide)
    rw [mrun, singleton_isPrefixOf, hne]
    rfl
  have hfail2 : ∀ y ∈ sufTails (c :: t) ind,
      mrun (.lit ['\n'] :: ts) y pend caps = none := by
    intro y hy
    obtain ⟨a, t2, rfl, ha⟩ := sufTails_mem hy
    have hne : ('\n' == a) = false := by
      refine beq_eq_false_iff_ne.2 fun hcc => ?_
      have := List.all_eq_true.1 h2 a ha
      rw [← hcc] at this
      exact absurd this (by decide)
    rw [mrun, singleton_isPrefixOf, hne]
    rfl
  calc firstSome ((c :: t) :: (sufTails (c :: t) ind ++ ['\n' :: (ind ++ c :: t)]))
        (fun r => mrun (RTok.lit ['\n'] :: ts) r pend caps)
      = firstSome (sufTails (c :: t) ind ++ ['\n' :: (ind ++ c :: t)])
        (fun r => mrun (RTok.lit ['\n'] :: ts) r pend caps) :=
        firstSome_cons_none hfail1
    _ = firstSome ['\n' :: (ind ++ c :: t)]
        (fun r => mrun (RTok.lit ['\n'] :: ts) r pend caps) :=
        firstSome_append_none hfail2
    _ = some v := firstSome_cons_some (mrun_lit_of rfl hv)

/-- `mrun_star_nl_of` with the run and the delimiting character
explicit. -/
theorem mrun_star_nl_split (ind : List Char) (c : Char) {t u : List Char}
    {ts : List RTok} {pend caps : List (Nat × List Char)}
    {v : List Char × List (Nat × List Char)}
    (he : u = '\n' :: (ind ++ c :: t))
    (h1 : ind.all isPyWS = true) (h2 : ind.all (fun x => !(x == '\n')) = true)
    (h3 : isPyWS c = false)
    (hv : mrun ts (ind ++ c :: t) pend caps = some v) :
    mrun (.star isPyWS :: .lit ['\n'] :: ts) u pend caps = some v :=
  mrun_star_nl_of he h1 h2 h3 hv

/-- `mrun_star_of` with the run and the delimiting character explicit,
so that unification can split structured input. -/
theorem mrun_star_split (q : List Char) (c : Char) {p : Char → Bool}
    {t u : List Char} {ts : List RTok} {pend caps : List (Nat × List Char)}
    {v : List Char × List (Nat × List Char)}
    (he : u = q ++ c :: t) (hq : q.all p = true) (hc : p c = false)
    (hv : mrun ts (c :: t) pend caps = some v) :
    mrun (.star p :: ts) u pend caps = some v :=
  mrun_star_of he hq hc hv

/-- `mrun_plus_of` with the run and the delimiting character explicit. -/
theorem mrun_plus_split (q : List Char) (c : Char) {p : Char → Bool}
    {t u : List Char} {ts : List RTok} {pend caps : List (Nat × List Char)}
    {v : List Char × List (Nat × List Char)}
    (he : u = q ++ c :: t) (hq : q.all p = true) (hne : q ≠ [])
    (hc : p c = false) (hv : mrun ts (c :: t) pend caps = some v) :
    mrun (.plus p :: ts) u pend caps = some v :=
  mrun_plus_of he hq hne hc hv

/-- The composite `[^}]+\n\}` in the middle of a member list: the greedy
run backtracks one step to leave the final newline for the literal. -/
theorem mrun_plus_nl_rb_of {mm t u : List Char} {ts : List RTok}
    {pend caps : List (Nat × List Char)} {v : List Char × List (Nat × List Char)}
    (he : u = mm ++ '\n' :: '}' :: t)
    (hmm : mm.all (fun c => !(c == '}')) = true) (hne : mm ≠ [])
    (hv : mrun ts t pend caps = some v) :
    mrun (.plus (fun c => !(c == '}')) :: .lit ['\n', '}'] :: ts) u pend caps =
      some v := by
  subst he
  cases mm with
  | nil => exact absurd rfl hne
  | cons m0 mm' =>
    rw [List.all_cons, Bool.and_eq_true] at hmm
    rw [List.cons_append, mrun, pRestsPlus, if_pos hmm.1]
    have hq : (mm' ++ ['\n']).all (fun c => !(c == '}')) = true := by
      rw [List.all_append]
      simp [hmm.2]
    have hsh : pRests (fun c => !(c == '}')) (mm' ++ '\n' :: '}' :: t) =
        ('}' :: t) :: sufTails ('}' :: t) (mm' ++ ['\n']) := by
      have := pRests_run (q := mm' ++ ['\n']) (p := fun c => !(c == '}'))
        (c := '}') t hq (by decide)
      rw [List.append_assoc] at this
      exact this
    rw [hsh, sufTails_snoc]
    have hfail1 : mrun (.lit ['\n', '}'] :: ts) ('}' :: t) pend caps = none := by
      rw [mrun]
      have hp : ['\n', '}'].isPrefixOf ('}' :: t) = false := by
        simp [List.isPrefixOf]
      rw [hp]
      rfl
    calc firstSome (('}' :: t) :: ('\n' :: '}' :: t) ::
          sufTails ('\n' :: '}' :: t) mm')
          (fun r => mrun (RTok.lit ['\n', '}'] :: ts) r pend caps)
        = firstSome (('\n' :: '}' :: t) :: sufTails ('\n' :: '}' :: t) mm')
          (fun r => mrun (RTok.lit ['\n', '}'] :: ts) r pend caps) :=
          firstSome_cons_none hfail1
      _ = some v := firstSome_cons_some (mrun_lit_of rfl hv)

/-- `mrun_plus_nl_rb_of` with the member run explicit. -/
theorem mrun_plus_nl_rb_split (mm : List Char) {t u : List Char}
    {ts : List RTok} {pend caps : List (Nat × List Char)}
    {v : List Char × List (Nat × List Char)}
    (he : u = mm ++ '\n' :: '\x7d' :: t)
    (hmm : mm.all (fun c => !(c == '\x7d')) = true) (hne : mm ≠ [])
    (hv : mrun ts t pend caps = some v) :
    mrun (.plus (fun c => !(c == '\x7d')) :: .lit ['\n', '\x7d'] :: ts) u pend
      caps = some v :=
  mrun_plus_nl_rb_of he hmm hne hv

end Re

/-! ## The tag substitution can only change content by adding the marker -/

namespace AddHitslop

/-- If the tag substitution changes the content at all, the output
contains the substring `HIT_SLOP` (it was inserted by some replacement). -/
theorem subst_tag_changed : ∀ (fuel : Nat) (s : List Char),
    Re.subst tagToks add_hitslop fuel s ≠ s →
    containsSub hitSlopMark (Re.subst tagToks add_hitslop fuel s) = true := by
  intro fuel
  induction fuel with
  | zero => intro s h; simp [Re.subst] at h
  | succ n ih =>
    intro s hne
    cases hm : Re.mrun tagToks s [] [] with
    | none =>
      cases s with
      | nil =>
        rw [Re.subst_nil hm (n + 1)] at hne
        exact absurd rfl hne
      | cons c t =>
        rw [Re.subst_none_cons n hm] at hne ⊢
        have ht : Re.subst tagToks add_hitslop n t ≠ t := by
          intro he; exact hne (by rw [he])
        exact containsSub_cons c (ih t ht)
    | some rc =>
      obtain ⟨r, caps⟩ := rc
      have hdec : s.take (s.length - r.length) ++ r = s :=
        Re.take_sub_append (Re.mrun_suffix hm)
      rw [Re.subst_some n hm] at hne ⊢
      by_cases hc : containsSub hitSlopAttr (Re.capGet caps 1) = true
      · have hrepl : add_hitslop caps (s.take (s.length - r.length)) =
            s.take (s.length - r.length) := by
          simp [add_hitslop, hc]
        rw [hrepl] at hne ⊢
        have hr : Re.subst tagToks add_hitslop n r ≠ r := by
          intro he
          rw [he, hdec] at hne
          exact hne rfl
        exact containsSub_append_right _ (ih r hr)
      · have hrepl : add_hitslop caps (s.take (s.length - r.length)) =
            Re.capGet caps 1 ++ (hitSlopIns ++ Re.capGet caps 2) := by
          simp [add_hitslop, hc, List.append_assoc]
        rw [hrepl]
        have h1 : containsSub hitSlopMark hitSlopIns = true := by decide
        have h2 : containsSub hitSlopMark
            (hitSlopIns ++ (Re.capGet caps 2 ++
              Re.subst tagToks add_hitslop n r)) = true :=
          containsSub_append_left _ h1
        have h3 := containsSub_append_right (Re.capGet caps 1) h2
        calc containsSub hitSlopMark
              (Re.capGet caps 1 ++ (hitSlopIns ++ Re.capGet caps 2) ++
                Re.subst tagToks add_hitslop n r)
            = containsSub hitSlopMark
              (Re.capGet caps 1 ++ (hitSlopIns ++ (Re.capGet caps 2 ++
                Re.subst tagToks add_hitslop n r))) := by
              simp [List.append_assoc]
          _ = true := h3

/-- `subIconButtons` version of the previous lemma. -/
theorem subIconButtons_changed {s : List Char}
    (h : subIconButtons s ≠ s) :
    containsSub hitSlopMark (subIconButtons s) = true :=
  subst_tag_changed (s.length + 1) s h

/-! ## Idempotence of the Injector's content transformation -/

/-- A file already carrying `HIT_SLOP` is returned unchanged (whether or
not it is otherwise eligible). -/
theorem injector_fix_of_contains {p : List String} {c : List Char}
    (h : containsSub hitSlopMark c = true) : injector p c = c := by
  by_cases hI : containsSub iconButtonMark c = true
  · by_cases hR : containsSub paperMark c = true
    · simp [injector, process_file, hI, hR, h]
    · simp only [Bool.not_eq_true] at hR
      simp [injector, process_file, hR]
  · simp only [Bool.not_eq_true] at hI
    simp [injector, process_file, hI]

/-- The Injector's inserted import statement contains the marker. -/
theorem containsSub_importStmt (p : List String) :
    containsSub hitSlopMark (importStmt p) = true := by
  unfold importStmt
  have h1 : containsSub hitSlopMark
      "import \x7b HIT_SLOP \x7d from '".toList = true := by decide
  exact containsSub_append_left _ (containsSub_append_left _ h1)

/-- Running the Injector leaves the content unchanged, or leaves the
marker `HIT_SLOP` in it. -/
theorem injector_fix_or_marker (p : List String) (c : List Char) :
    injector p c = c ∨
      containsSub hitSlopMark (injector p c) = true := by
  by_cases hI : containsSub iconButtonMark c = true
  · by_cases hR : containsSub paperMark c = true
    · by_cases hH : containsSub hitSlopMark c = true
      · left; simp [injector, process_file, hI, hR, hH]
      · simp only [Bool.not_eq_true] at hH
        cases hA : lastImportLine (splitNl c) with
        | some k =>
          right
          have hres : injector p c =
              subIconButtons (joinNl (insertAt (k + 1) (importStmt p) (splitNl c))) := by
            simp [injector, process_file, hI, hR, hH, hA]
          rw [hres]
          have hmem : importStmt p ∈ insertAt (k + 1) (importStmt p) (splitNl c) :=
            mem_insertAt _ _ _
          have hin : containsSub hitSlopMark
              (joinNl (insertAt (k + 1) (importStmt p) (splitNl c))) = true :=
            containsSub_mono (containsSub_importStmt p) (infix_joinNl hmem)
          by_cases hs : subIconButtons
              (joinNl (insertAt (k + 1) (importStmt p) (splitNl c))) =
              joinNl (insertAt (k + 1) (importStmt p) (splitNl c))
          · rw [hs]; exact hin
          · exact subIconButtons_changed hs
        | none =>
          by_cases hs : subIconButtons c = c
          · left; simp [injector, process_file, hI, hR, hH, hA, hs]
          · right
            have hres : injector p c = subIconButtons c := by
              simp [injector, process_file, hI, hR, hH, hA, hs]
            rw [hres]
            exact subIconButtons_changed hs
    · simp only [Bool.not_eq_true] at hR
      left; simp [injector, process_file, hR]
  · simp only [Bool.not_eq_true] at hI
    left; simp [injector, process_file, hI]

/-! ## Evaluating the tag pattern on a single well-delimited tag -/

/-- The tag pattern's tokens after the lazy class. -/
def icbTail : List Re.RTok :=
  [.gclose 1, .gopen 2, .optc '/', .lit ['>'], .gclose 2]

theorem notGt_true_iff {a : Char} : notGt a = true ↔ a ≠ '>' := by
  simp [notGt]

/-- The continuation after the lazy class fails unless the rest starts
with the closing delimiter. -/
theorem icbTail_fail {u : List Char} {pend caps : List (Nat × List Char)}
    {so : List Char} (hp : Re.assocGet pend 1 = some so)
    (h1 : ∀ y, u ≠ '>' :: y) (h2 : ∀ y, u ≠ '/' :: '>' :: y) :
    Re.mrun icbTail u pend caps = none := by
  have step : ∀ (caps' : List (Nat × List Char)),
      Re.mrun [.optc '/', .lit ['>'], .gclose 2] u ((2, u) :: pend) caps' =
        none := by
    intro caps'
    cases u with
    | nil => simp [Re.mrun, Re.optRests, Re.firstSome, List.isPrefixOf]
    | cons a y =>
      by_cases ha : a = '/'
      · subst ha
        have hy : ∀ z, y ≠ '>' :: z := by
          intro z hz
          exact h2 z (by rw [hz])
        rw [Re.mrun, Re.optRests, if_pos rfl]
        have f1 : Re.mrun [Re.RTok.lit ['>'], Re.RTok.gclose 2] y
            ((2, '/' :: y) :: pend) caps' = none := by
          cases y with
          | nil => simp [Re.mrun, List.isPrefixOf]
          | cons b z =>
            have hb : ('>' == b) = false := by
              refine beq_eq_false_iff_ne.2 fun hbb => ?_
              exact hy z (by rw [← hbb])
            rw [Re.mrun, Re.singleton_isPrefixOf, hb]
            rfl
        have f2 : Re.mrun [Re.RTok.lit ['>'], Re.RTok.gclose 2] ('/' :: y)
            ((2, '/' :: y) :: pend) caps' = none := by
          rw [Re.mrun, Re.singleton_isPrefixOf]
          have : ('>' == '/') = false := by decide
          rw [this]
          rfl
        rw [Re.firstSome, f1, Re.firstSome, f2, Re.firstSome]
      · have hne : (a == '/') = false := beq_eq_false_iff_ne.2 ha
        rw [Re.mrun, Re.optRests]
        rw [if_neg (by simpa using ha)]
        have f1 : Re.mrun [Re.RTok.lit ['>'], Re.RTok.gclose 2] (a :: y)
            ((2, a :: y) :: pend) caps' = none := by
          have hb : ('>' == a) = false := by
            refine beq_eq_false_iff_ne.2 fun hbb => ?_
            exact h1 y (by rw [← hbb])
          rw [Re.mrun, Re.singleton_isPrefixOf, hb]
          rfl
        rw [Re.firstSome, f1, Re.firstSome]
  rw [icbTail, Re.mrun, hp]
  show Re.mrun [.gopen 2, .optc '/', .lit ['>'], .gclose 2] u pend
    ((1, so.take (so.length - u.length)) :: caps) = none
  rw [Re.mrun]
  exact step _

/-- The lazy class expands through a `>`-free attribute run up to a
self-closing delimiter. -/
theorem mrun_lstar_icb_sc {attrs : List Char}
    {pend caps : List (Nat × List Char)} {so : List Char}
    {v : List Char × List (Nat × List Char)}
    (h : attrs.all notGt = true) (hp : Re.assocGet pend 1 = some so)
    (hv : Re.mrun icbTail ['/', '>'] pend caps = some v) :
    Re.mrun (.lstar notGt :: icbTail) (attrs ++ ['/', '>']) pend caps = some v := by
  induction attrs with
  | nil =>
    rw [List.nil_append, Re.mrun]
    have hl : (Re.pRests notGt ['/', '>']).reverse = [['/', '>'], ['>']] := by
      decide
    rw [hl]
    exact Re.firstSome_cons_some hv
  | cons a t ih =>
    rw [List.all_cons, Bool.and_eq_true] at h
    have ha : a ≠ '>' := notGt_true_iff.1 h.1
    rw [List.cons_append, Re.mrun, Re.pRests, if_pos h.1, List.reverse_append,
      List.reverse_singleton, List.singleton_append]
    have hfail : Re.mrun icbTail (a :: (t ++ ['/', '>'])) pend caps = none := by
      refine icbTail_fail hp ?_ ?_
      · intro y hy
        refine ha ?_
        injection hy
      · intro y hy
        have h1 : a = '/' ∧ t ++ ['/', '>'] = '>' :: y := by
          refine ⟨?_, ?_⟩ <;> injection hy
        cases t with
        | nil =>
          have hh : '/' = '>' := by injection h1.2 with hh _
          exact absurd hh (by decide)
        | cons b t' =>
          have hball := h.2
          rw [List.all_cons, Bool.and_eq_true] at hball
          have hcons : b :: (t' ++ ['/', '>']) = '>' :: y := by
            rw [← List.cons_append]; exact h1.2
          refine (notGt_true_iff.1 hball.1) ?_
          injection hcons with hh _
    have hrec := ih h.2
    rw [Re.mrun] at hrec
    calc Re.firstSome ((a :: (t ++ ['/', '>'])) ::
          (Re.pRests notGt (t ++ ['/', '>'])).reverse)
          (fun r => Re.mrun icbTail r pend caps)
        = Re.firstSome ((Re.pRests notGt (t ++ ['/', '>'])).reverse)
          (fun r => Re.mrun icbTail r pend caps) :=
          Re.firstSome_cons_none hfail
      _ = some v := hrec

/-- The lazy class expands through a `>`-free attribute run (not ending
in a slash) up to a plain closing delimiter. -/
theorem mrun_lstar_icb_gt {attrs : List Char}
    {pend caps : List (Nat × List Char)} {so : List Char}
    {v : List Char × List (Nat × List Char)}
    (h : attrs.all notGt = true) (hlast : attrs.getLast? ≠ some '/')
    (hp : Re.assocGet pend 1 = some so)
    (hv : Re.mrun icbTail ['>'] pend caps = some v) :
    Re.mrun (.lstar notGt :: icbTail) (attrs ++ ['>']) pend caps = some v := by
  induction attrs with
  | nil =>
    rw [List.nil_append, Re.mrun]
    have hl : (Re.pRests notGt ['>']).reverse = [['>']] := by decide
    rw [hl]
    exact Re.firstSome_cons_some hv
  | cons a t ih =>
    rw [List.all_cons, Bool.and_eq_true] at h
    have ha : a ≠ '>' := notGt_true_iff.1 h.1
    rw [List.cons_append, Re.mrun, Re.pRests, if_pos h.1, List.reverse_append,
      List.reverse_singleton, List.singleton_append]
    have hfail : Re.mrun icbTail (a :: (t ++ ['>'])) pend caps = none := by
      refine icbTail_fail hp ?_ ?_
      · intro y hy
        refine ha ?_
        injection hy
      · intro y hy
        have h1 : a = '/' ∧ t ++ ['>'] = '>' :: y := by
          refine ⟨?_, ?_⟩ <;> injection hy
        cases t with
        | nil =>
          refine hlast ?_
          rw [h1.1]
          rfl
        | cons b t' =>
          have hball := h.2
          rw [List.all_cons, Bool.and_eq_true] at hball
          have hcons : b :: (t' ++ ['>']) = '>' :: y := by
            rw [← List.cons_append]; exact h1.2
          refine (notGt_true_iff.1 hball.1) ?_
          injection hcons
    have hlast' : t.getLast? ≠ some '/' := by
      cases t with
      | nil => simp
      | cons b t' =>
        rw [← List.getLast?_cons_cons (a := a)]
        exact hlast
    have hrec := ih h.2 hlast'
    rw [Re.mrun] at hrec
    calc Re.firstSome ((a :: (t ++ ['>'])) ::
          (Re.pRests notGt (t ++ ['>'])).reverse)
          (fun r => Re.mrun icbTail r pend caps)
        = Re.firstSome ((Re.pRests notGt (t ++ ['>'])).reverse)
          (fun r => Re.mrun icbTail r pend caps) :=
          Re.firstSome_cons_none hfail
      _ = some v := hrec

/-- Full run of the tag pattern on one self-closing tag. -/
theorem mrun_tag_sc {attrs : List Char} (h : attrs.all notGt = true) :
    Re.mrun tagToks ("<IconButton".toList ++ (attrs ++ ['/', '>'])) [] [] =
      some ([], [(2, ['/', '>']), (1, "<IconButton".toList ++ attrs)]) := by
  have hg1 : Re.assocGet [(1, "<IconButton".toList ++ (attrs ++ ['/', '>']))] 1 =
      some (("<IconButton".toList ++ attrs) ++ ['/', '>']) := rfl
  have hg2 : Re.assocGet
      ((2, ['/', '>']) ::
        [(1, "<IconButton".toList ++ (attrs ++ ['/', '>']))]) 2 =
      some ['/', '>'] := rfl
  show Re.mrun (.gopen 1 :: .lit "<IconButton".toList :: .lstar notGt :: icbTail)
    ("<IconButton".toList ++ (attrs ++ ['/', '>'])) [] [] = _
  apply Re.mrun_gopen_of
  apply Re.mrun_lit_of rfl
  refine mrun_lstar_icb_sc h hg1 ?_
  show Re.mrun (.gclose 1 :: [.gopen 2, .optc '/', .lit ['>'], .gclose 2])
    ['/', '>'] _ _ = _
  apply Re.mrun_gclose_of hg1
  apply Re.mrun_gopen_of
  apply Re.mrun_optc_of rfl
  apply Re.mrun_lit_of (show ['>'] = ['>'] ++ [] from rfl)
  apply Re.mrun_gclose_nil_of hg2
  rw [Re.mrun]

/-- Full run of the tag pattern on one tag with a plain closing
delimiter (whose attribute text does not end in a slash). -/
theorem mrun_tag_gt {attrs : List Char} (h : attrs.all notGt = true)
    (hlast : attrs.getLast? ≠ some '/') :
    Re.mrun tagToks ("<IconButton".toList ++ (attrs ++ ['>'])) [] [] =
      some ([], [(2, ['>']), (1, "<IconButton".toList ++ attrs)]) := by
  have hg1 : Re.assocGet [(1, "<IconButton".toList ++ (attrs ++ ['>']))] 1 =
      some (("<IconButton".toList ++ attrs) ++ ['>']) := rfl
  have hg2 : Re.assocGet
      ((2, ['>']) :: [(1, "<IconButton".toList ++ (attrs ++ ['>']))]) 2 =
      some ['>'] := rfl
  show Re.mrun (.gopen 1 :: .lit "<IconButton".toList :: .lstar notGt :: icbTail)
    ("<IconButton".toList ++ (attrs ++ ['>'])) [] [] = _
  apply Re.mrun_gopen_of
  apply Re.mrun_lit_of rfl
  refine mrun_lstar_icb_gt h hlast hg1 ?_
  show Re.mrun (.gclose 1 :: [.gopen 2, .optc '/', .lit ['>'], .gclose 2])
    ['>'] _ _ = _
  apply Re.mrun_gclose_of hg1
  apply Re.mrun_gopen_of
  apply Re.mrun_optc_skip_of rfl (by decide)
  apply Re.mrun_lit_of (show ['>'] = ['>'] ++ [] from rfl)
  apply Re.mrun_gclose_nil_of hg2
  rw [Re.mrun]

/-- The substitution on a single self-closing tag without the marker:
the marker attribute is inserted before the closing delimiter. -/
theorem subIconButtons_sc_ins {attrs : List Char} (h : attrs.all notGt = true)
    (hc : containsSub hitSlopAttr ("<IconButton".toList ++ attrs) = false) :
    subIconButtons ("<IconButton".toList ++ attrs ++ ['/', '>']) =
      "<IconButton".toList ++ attrs ++ hitSlopIns ++ ['/', '>'] := by
  have hm : Re.mrun tagToks ("<IconButton".toList ++ attrs ++ ['/', '>']) [] [] =
      some ([], [(2, ['/', '>']), (1, "<IconButton".toList ++ attrs)]) :=
    mrun_tag_sc h
  unfold subIconButtons Re.reSub
  rw [Re.subst_some _ hm, Re.subst_nil (by decide), List.append_nil]
  rw [List.length_nil, Nat.sub_zero, List.take_length]
  simp only [add_hitslop]
  have hcap1 : Re.capGet [(2, ['/', '>']), (1, "<IconButton".toList ++ attrs)] 1 =
      "<IconButton".toList ++ attrs := rfl
  have hcap2 : Re.capGet [(2, ['/', '>']), (1, "<IconButton".toList ++ attrs)] 2 =
      ['/', '>'] := rfl
  rw [hcap1, hcap2, hc]
  simp

/-- The substitution keeps a single self-closing tag that already
mentions `hitSlop`. -/
theorem subIconButtons_sc_skip {attrs : List Char} (h : attrs.all notGt = true)
    (hc : containsSub hitSlopAttr ("<IconButton".toList ++ attrs) = true) :
    subIconButtons ("<IconButton".toList ++ attrs ++ ['/', '>']) =
      "<IconButton".toList ++ attrs ++ ['/', '>'] := by
  have hm : Re.mrun tagToks ("<IconButton".toList ++ attrs ++ ['/', '>']) [] [] =
      some ([], [(2, ['/', '>']), (1, "<IconButton".toList ++ attrs)]) :=
    mrun_tag_sc h
  unfold subIconButtons Re.reSub
  rw [Re.subst_some _ hm, Re.subst_nil (by decide), List.append_nil]
  rw [List.length_nil, Nat.sub_zero, List.take_length]
  simp only [add_hitslop]
  have hcap1 : Re.capGet [(2, ['/', '>']), (1, "<IconButton".toList ++ attrs)] 1 =
      "<IconButton".toList ++ attrs := rfl
  rw [hcap1, hc]
  simp

/-- The substitution on a single plainly-closed tag without the marker. -/
theorem subIconButtons_gt_ins {attrs : List Char} (h : attrs.all notGt = true)
    (hlast : attrs.getLast? ≠ some '/')
    (hc : containsSub hitSlopAttr ("<IconButton".toList ++ attrs) = false) :
    subIconButtons ("<IconButton".toList ++ attrs ++ ['>']) =
      "<IconButton".toList ++ attrs ++ hitSlopIns ++ ['>'] := by
  have hm : Re.mrun tagToks ("<IconButton".toList ++ attrs ++ ['>']) [] [] =
      some ([], [(2, ['>']), (1, "<IconButton".toList ++ attrs)]) :=
    mrun_tag_gt h hlast
  unfold subIconButtons Re.reSub
  rw [Re.subst_some _ hm, Re.subst_nil (by decide), List.append_nil]
  rw [List.length_nil, Nat.sub_zero, List.take_length]
  simp only [add_hitslop]
  have hcap1 : Re.capGet [(2, ['>']), (1, "<IconButton".toList ++ attrs)] 1 =
      "<IconButton".toList ++ attrs := rfl
  have hcap2 : Re.capGet [(2, ['>']), (1, "<IconButton".toList ++ attrs)] 2 =
      ['>'] := rfl
  rw [hcap1, hcap2, hc]
  simp

/-- Without the anchor text `<IconButton` the tag pattern never matches. -/
theorem matchSomewhere_tag_false {c : List Char}
    (h : containsSub "<IconButton".toList c = false) :
    Re.matchSomewhere tagToks c = false := by
  induction c with
  | nil => decide
  | cons a t ih =>
    rw [containsSub, Bool.or_eq_false_iff] at h
    rw [Re.matchSomewhere, Bool.or_eq_false_iff]
    refine ⟨?_, ih h.2⟩
    cases hm : Re.mrun tagToks (a :: t) [] [] with
    | none => rfl
    | some v =>
      exfalso
      have hpre : "<IconButton".toList.isPrefixOf (a :: t) = false := h.1
      rw [show tagToks =
        .gopen 1 :: .lit "<IconButton".toList :: .lstar notGt :: icbTail
        from rfl] at hm
      simp only [Re.mrun, hpre] at hm
      simp at hm

/-- Content with no `<IconButton` occurrence is left unchanged by the
tag substitution. -/
theorem subIconButtons_no_tag {c : List Char}
    (h : containsSub "<IconButton".toList c = false) :
    subIconButtons c = c :=
  Re.reSub_no_match (matchSomewhere_tag_false h)

end AddHitslop

/-! ## Evaluating the Callback Repairer on one truncated callback -/

/-- `str.strip` is the identity on text that neither starts nor ends
with whitespace. -/
theorem pyStrip_id {l : List Char}
    (h1 : ∀ a, l.head? = some a → isPyWS a = false)
    (h2 : ∀ a, l.getLast? = some a → isPyWS a = false) :
    pyStrip l = l := by
  have hstep : ∀ (a : Char) (t : List Char), isPyWS a = false →
      List.dropWhile isPyWS (a :: t) = a :: t := by
    intro a t ha
    rw [List.dropWhile_cons, ha]
    simp
  unfold pyStrip
  cases l with
  | nil => rfl
  | cons a t =>
    rw [hstep a t (h1 a rfl)]
    cases hr : (a :: t).reverse with
    | nil => exact absurd hr (by simp)
    | cons b bt =>
      have hb : isPyWS b = false := by
        apply h2
        rw [← List.head?_reverse, hr]
        rfl
      rw [hstep b bt hb]
      calc (b :: bt).reverse = (a :: t).reverse.reverse := by rw [hr]
        _ = a :: t := List.reverse_reverse _

namespace FixArrowFunctions

/-- The corrupted callback shape the script repairs. -/
def corruptArrow (name ind body : List Char) : List Char :=
  name ++ ("=\x7b() =\n".toList ++
    (ind ++ ("hitSlop=\x7bHIT_SLOP\x7d> ".toList ++ (body ++ ['\x7d']))))

/-- The repaired single-line callback followed by the marker attribute. -/
def repairedArrow (name body : List Char) : List Char :=
  name ++ ("=\x7b() => ".toList ++
    (body ++ "\x7d\n                hitSlop=\x7bHIT_SLOP\x7d".toList))

/-- Full run of the callback pattern on one corrupted callback. -/
theorem mrun_arrow {name ind : List Char} {b0 : Char} {body' : List Char}
    (hn : name ≠ []) (hnw : name.all isPyWord = true)
    (hi : ind ≠ []) (hiw : ind.all isPyWS = true)
    (hin : ind.all (fun x => !(x == '\n')) = true)
    (hb0 : isPyWS b0 = false)
    (hbody : (b0 :: body').all (fun c => !(c == '}')) = true) :
    Re.mrun toks (corruptArrow name ind (b0 :: body')) [] [] =
      some ([], [(2, b0 :: body'), (1, name)]) := by
  have hg1 : Re.assocGet [(1, corruptArrow name ind (b0 :: body'))] 1 =
      some (name ++ ("=\x7b() =\n".toList ++
        (ind ++ ("hitSlop=\x7bHIT_SLOP\x7d> ".toList ++
          ((b0 :: body') ++ ['\x7d']))))) := rfl
  show Re.mrun toks (corruptArrow name ind (b0 :: body')) [] [] = _
  apply Re.mrun_gopen_of
  apply Re.mrun_plus_split name '=' rfl hnw hn (by decide)
  apply Re.mrun_gclose_of hg1
  apply Re.mrun_lit_of rfl
  apply Re.mrun_star_split [' '] '=' rfl (by decide) (by decide)
  apply Re.mrun_lit_of rfl
  apply Re.mrun_star_nl_split ind 'h' rfl hiw hin (by decide)
  apply Re.mrun_plus_split ind 'h' rfl hiw hi (by decide)
  apply Re.mrun_lit_of rfl
  apply Re.mrun_star_split [' '] b0 rfl (by decide) hb0
  apply Re.mrun_gopen_of
  apply Re.mrun_plus_split (b0 :: body') '\x7d' rfl hbody (by simp) (by decide)
  apply Re.mrun_gclose_of
    (show Re.assocGet ((2, b0 :: (body' ++ ['\x7d'])) ::
        [(1, corruptArrow name ind (b0 :: body'))]) 2 =
      some ((b0 :: body') ++ ['\x7d']) from rfl)
  apply Re.mrun_lit_of (show ['\x7d'] = ['\x7d'] ++ [] from rfl)
  rw [Re.mrun]

/-- The Callback Repairer on exactly one corrupted callback: the
single-line arrow is reassembled with the marker attribute restored on
its own line beneath. -/
theorem fix_file_corruptArrow {name ind : List Char} {b0 : Char} {body' : List Char}
    (hn : name ≠ []) (hnw : name.all isPyWord = true)
    (hi : ind ≠ []) (hiw : ind.all isPyWS = true)
    (hin : ind.all (fun x => !(x == '\n')) = true)
    (hb0 : isPyWS b0 = false)
    (hbody : (b0 :: body').all (fun c => !(c == '}')) = true)
    (hlast : ∀ a, (b0 :: body').getLast? = some a → isPyWS a = false) :
    fix_file (corruptArrow name ind (b0 :: body')) =
      repairedArrow name (b0 :: body') := by
  have hm := mrun_arrow hn hnw hi hiw hin hb0 hbody
  unfold fix_file Re.reSub
  rw [Re.subst_some _ hm, Re.subst_nil (by decide), List.append_nil]
  rw [List.length_nil, Nat.sub_zero, List.take_length]
  simp only [fix_arrow]
  have hcap1 : Re.capGet [(2, b0 :: body'), (1, name)] 1 = name := rfl
  have hcap2 : Re.capGet [(2, b0 :: body'), (1, name)] 2 = b0 :: body' := rfl
  rw [hcap1, hcap2, pyStrip_id (fun a ha => by injection ha with h'; rw [← h']; exact hb0) hlast]
  unfold repairedArrow
  simp [List.append_assoc]

end FixArrowFunctions

/-! ## Evaluating the Import Repairer on one corrupted import block -/

namespace FixAllImports

/-- The corrupted import block the script repairs: the marker import
wedged directly after the opening brace of a multi-line import. -/
def corruptImport (p1 mm p2 : List Char) : List Char :=
  "import \x7b\nimport \x7b HIT_SLOP \x7d from '".toList ++
    (p1 ++ ("';\n  ".toList ++
      (mm ++ ("\n\x7d from '".toList ++ (p2 ++ "';".toList)))))

/-- The reconstructed block: the original multi-line import followed by
the marker import as a standalone statement with its original path. -/
def repairedImport (p1 mm p2 : List Char) : List Char :=
  "import \x7b\n  ".toList ++
    (mm ++ ("\n\x7d from '".toList ++
      (p2 ++ ("';\nimport \x7b HIT_SLOP \x7d from '".toList ++
        (p1 ++ "';".toList)))))

/-- Full run of the import pattern on one corrupted block. -/
theorem mrun_imp {p1 p2 mm' : List Char} {m0 : Char}
    (hp1 : p1.all (fun c => !isQuote c) = true) (hp1n : p1 ≠ [])
    (hp2 : p2.all (fun c => !isQuote c) = true) (hp2n : p2 ≠ [])
    (hm0 : isPyWS m0 = false)
    (hmm : (m0 :: mm').all (fun c => !(c == '\x7d')) = true) :
    Re.mrun toks (corruptImport p1 (m0 :: mm') p2) [] [] =
      some ([], [(3, "  ".toList ++ ((m0 :: mm') ++
          ("\n\x7d from '".toList ++ (p2 ++ "';".toList)))),
        (2, p1), (1, "import \x7b".toList)]) := by
  have hg1 : Re.assocGet [(1, corruptImport p1 (m0 :: mm') p2)] 1 =
      some ("import \x7b".toList ++
        ('\n' :: ("import \x7b HIT_SLOP \x7d from '".toList ++
          (p1 ++ ("';\n  ".toList ++
            ((m0 :: mm') ++ ("\n\x7d from '".toList ++
              (p2 ++ "';".toList)))))))) := rfl
  have hg2 : Re.assocGet
      ((2, p1 ++ ("';\n  ".toList ++ ((m0 :: mm') ++
          ("\n\x7d from '".toList ++ (p2 ++ "';".toList))))) ::
        [(1, corruptImport p1 (m0 :: mm') p2)]) 2 =
      some (p1 ++ ('\'' :: (";\n  ".toList ++ ((m0 :: mm') ++
        ("\n\x7d from '".toList ++ (p2 ++ "';".toList)))))) := rfl
  have hg3 : Re.assocGet
      ((3, "  ".toList ++ ((m0 :: mm') ++
          ("\n\x7d from '".toList ++ (p2 ++ "';".toList)))) ::
        (2, p1 ++ ("';\n  ".toList ++ ((m0 :: mm') ++
          ("\n\x7d from '".toList ++ (p2 ++ "';".toList))))) ::
        [(1, corruptImport p1 (m0 :: mm') p2)]) 3 =
      some ("  ".toList ++ ((m0 :: mm') ++
        ("\n\x7d from '".toList ++ (p2 ++ "';".toList)))) := rfl
  show Re.mrun toks (corruptImport p1 (m0 :: mm') p2) [] [] = _
  apply Re.mrun_gopen_of
  apply Re.mrun_lit_of rfl
  apply Re.mrun_plus_split [' '] '\x7b' rfl (by decide) (by decide) (by decide)
  apply Re.mrun_lit_of rfl
  apply Re.mrun_gclose_of hg1
  apply Re.mrun_star_nl_split [] 'i' rfl (by decide) (by decide) (by decide)
  apply Re.mrun_lit_of rfl
  apply Re.mrun_plus_split [' '] '\x7b' rfl (by decide) (by decide) (by decide)
  apply Re.mrun_lit_of rfl
  apply Re.mrun_star_split [' '] 'H' rfl (by decide) (by decide)
  apply Re.mrun_lit_of rfl
  apply Re.mrun_star_split [' '] '\x7d' rfl (by decide) (by decide)
  apply Re.mrun_lit_of rfl
  apply Re.mrun_plus_split [' '] 'f' rfl (by decide) (by decide) (by decide)
  apply Re.mrun_lit_of rfl
  apply Re.mrun_plus_split [' '] '\'' rfl (by decide) (by decide) (by decide)
  apply Re.mrun_one_of rfl (by decide)
  apply Re.mrun_gopen_of
  apply Re.mrun_plus_split p1 '\'' rfl hp1 hp1n (by decide)
  apply Re.mrun_gclose_of hg2
  apply Re.mrun_one_of rfl (by decide)
  apply Re.mrun_lit_of rfl
  apply Re.mrun_star_nl_split "  ".toList m0 rfl (by decide) (by decide) hm0
  apply Re.mrun_gopen_of
  apply Re.mrun_plus_split "  ".toList m0 rfl (by decide) (by decide) hm0
  apply Re.mrun_plus_nl_rb_split (m0 :: mm') rfl hmm (by simp)
  apply Re.mrun_plus_split [' '] 'f' rfl (by decide) (by decide) (by decide)
  apply Re.mrun_lit_of rfl
  apply Re.mrun_plus_split [' '] '\'' rfl (by decide) (by decide) (by decide)
  apply Re.mrun_one_of rfl (by decide)
  apply Re.mrun_plus_split p2 '\'' rfl hp2 hp2n (by decide)
  apply Re.mrun_one_of rfl (by decide)
  apply Re.mrun_lit_of (show [';'] = [';'] ++ [] from rfl)
  apply Re.mrun_gclose_nil_of hg3
  rw [Re.mrun]

/-- The Import Repairer on exactly one corrupted block: the block is
reconstructed with the marker import as a standalone statement. -/
theorem fix_file_corruptImport {p1 p2 mm' : List Char} {m0 : Char}
    (hp1 : p1.all (fun c => !isQuote c) = true) (hp1n : p1 ≠ [])
    (hp2 : p2.all (fun c => !isQuote c) = true) (hp2n : p2 ≠ [])
    (hm0 : isPyWS m0 = false)
    (hmm : (m0 :: mm').all (fun c => !(c == '\x7d')) = true) :
    fix_file (corruptImport p1 (m0 :: mm') p2) =
      repairedImport p1 (m0 :: mm') p2 := by
  have hm := mrun_imp hp1 hp1n hp2 hp2n hm0 hmm
  unfold fix_file Re.reSub
  rw [Re.subst_some _ hm, Re.subst_nil (by decide), List.append_nil]
  simp only [fix_import]
  have hcap1 : Re.capGet [(3, "  ".toList ++ ((m0 :: mm') ++
      ("\n\x7d from '".toList ++ (p2 ++ "';".toList)))),
      (2, p1), (1, "import \x7b".toList)] 1 = "import \x7b".toList := rfl
  have hcap2 : Re.capGet [(3, "  ".toList ++ ((m0 :: mm') ++
      ("\n\x7d from '".toList ++ (p2 ++ "';".toList)))),
      (2, p1), (1, "import \x7b".toList)] 2 = p1 := rfl
  have hcap3 : Re.capGet [(3, "  ".toList ++ ((m0 :: mm') ++
      ("\n\x7d from '".toList ++ (p2 ++ "';".toList)))),
      (2, p1), (1, "import \x7b".toList)] 3 =
      "  ".toList ++ ((m0 :: mm') ++
        ("\n\x7d from '".toList ++ (p2 ++ "';".toList))) := rfl
  rw [hcap1, hcap2, hcap3]
  unfold repairedImport
  simp [List.append_assoc]

end FixAllImports

/-! ## Idempotence of the Callback Repairer

The pattern of `fix_arrow_functions.py` can never match in the text the
script itself produced.  A successful match is inverted into its shape
(`mrun_arrow_inv`), split at the marker attribute's closing brace, which
is the first closing brace of the matched text; in the rewritten file,
the first closing brace reachable from any candidate start position is
followed by a newline instead of the `>` the pattern requires, except
when the match was already present before the rewrite.  The induction
`subst_out_none` carries this argument through the left-to-right scan. -/

/-! ## Idempotence of the Callback Repairer: engine inversion -/

namespace Re

/-- Every rest a greedy class run leaves comes from consuming a run of
class characters. -/
theorem pRests_decomp {p : Char → Bool} : ∀ {s r : List Char},
    r ∈ pRests p s → ∃ q, s = q ++ r ∧ q.all p = true := by
  intro s
  induction s with
  | nil =>
    intro r hr
    simp [pRests] at hr
    exact ⟨[], by simp [hr], rfl⟩
  | cons c t ih =>
    intro r hr
    rw [pRests] at hr
    split at hr
    case isTrue hc =>
      rcases List.mem_append.1 hr with h1 | h2
      · obtain ⟨q, hq, hall⟩ := ih h1
        exact ⟨c :: q, by rw [hq]; rfl, by simp [List.all_cons, hc, hall]⟩
      · simp at h2
        exact ⟨[], by simp [h2], rfl⟩
    case isFalse hc =>
      simp at hr
      exact ⟨[], by simp [hr], rfl⟩

theorem pRestsPlus_decomp {p : Char → Bool} {s r : List Char}
    (h : r ∈ pRestsPlus p s) : ∃ q, s = q ++ r ∧ q ≠ [] ∧ q.all p = true := by
  cases s with
  | nil => simp [pRestsPlus] at h
  | cons c t =>
    rw [pRestsPlus] at h
    split at h
    case isTrue hc =>
      obtain ⟨q, hq, hall⟩ := pRests_decomp h
      exact ⟨c :: q, by rw [hq]; rfl, by simp, by simp [List.all_cons, hc, hall]⟩
    case isFalse hc => simp at h

theorem mrun_lit_inv {l : List Char} {ts : List RTok} {s : List Char}
    {pend caps : List (Nat × List Char)} {v : List Char × List (Nat × List Char)}
    (h : mrun (.lit l :: ts) s pend caps = some v) :
    ∃ u, s = l ++ u ∧ mrun ts u pend caps = some v := by
  rw [mrun] at h
  split at h
  case isTrue hp =>
    obtain ⟨u, hu⟩ := List.isPrefixOf_iff_prefix.1 hp
    subst hu
    rw [List.drop_left] at h
    exact ⟨u, rfl, h⟩
  case isFalse hp => cases h

theorem mrun_star_inv {p : Char → Bool} {ts : List RTok} {s : List Char}
    {pend caps : List (Nat × List Char)} {v : List Char × List (Nat × List Char)}
    (h : mrun (.star p :: ts) s pend caps = some v) :
    ∃ q u, s = q ++ u ∧ q.all p = true ∧ mrun ts u pend caps = some v := by
  rw [mrun] at h
  obtain ⟨a, ha, hfa⟩ := firstSome_eq_some h
  obtain ⟨q, hq, hall⟩ := pRests_decomp ha
  exact ⟨q, a, hq, hall, hfa⟩

theorem mrun_plus_inv {p : Char → Bool} {ts : List RTok} {s : List Char}
    {pend caps : List (Nat × List Char)} {v : List Char × List (Nat × List Char)}
    (h : mrun (.plus p :: ts) s pend caps = some v) :
    ∃ q u, s = q ++ u ∧ q ≠ [] ∧ q.all p = true ∧ mrun ts u pend caps = some v := by
  rw [mrun] at h
  obtain ⟨a, ha, hfa⟩ := firstSome_eq_some h
  obtain ⟨q, hq, hne, hall⟩ := pRestsPlus_decomp ha
  exact ⟨q, a, hq, hne, hall, hfa⟩

theorem mrun_gopen_inv {i : Nat} {ts : List RTok} {s : List Char}
    {pend caps : List (Nat × List Char)} {v : List Char × List (Nat × List Char)}
    (h : mrun (.gopen i :: ts) s pend caps = some v) :
    mrun ts s ((i, s) :: pend) caps = some v := by
  rw [mrun] at h
  exact h

theorem mrun_gclose_inv {i : Nat} {ts : List RTok} {s : List Char}
    {pend caps : List (Nat × List Char)} {v : List Char × List (Nat × List Char)}
    (h : mrun (.gclose i :: ts) s pend caps = some v) :
    ∃ so, assocGet pend i = some so ∧
      mrun ts s pend ((i, so.take (so.length - s.length)) :: caps) = some v := by
  rw [mrun] at h
  cases hget : assocGet pend i with
  | some so => rw [hget] at h; exact ⟨so, rfl, h⟩
  | none => rw [hget] at h; cases h

/-- Any rest reachable by consuming a class run is a candidate of the
greedy star. -/
theorem mem_pRests_of_all {p : Char → Bool} : ∀ {q : List Char} (u : List Char),
    q.all p = true → u ∈ pRests p (q ++ u) := by
  intro q
  induction q with
  | nil =>
    intro u _
    cases u with
    | nil => simp [pRests]
    | cons c t =>
      rw [List.nil_append, pRests]
      split
      · exact List.mem_append.2 (Or.inr (List.mem_singleton.2 rfl))
      · exact List.mem_singleton.2 rfl
  | cons c q' ih =>
    intro u hall
    simp only [List.all_cons, Bool.and_eq_true] at hall
    rw [List.cons_append, pRests, if_pos hall.1]
    exact List.mem_append.2 (Or.inl (ih u hall.2))

theorem firstSome_isSome_of_mem {l : List α} {f : α → Option β} {a : α}
    (ha : a ∈ l) (h : (f a).isSome = true) : (firstSome l f).isSome = true := by
  induction l with
  | nil => cases ha
  | cons x t ih =>
    cases hfx : f x with
    | some b => rw [firstSome, hfx]; rfl
    | none =>
      rw [firstSome, hfx]
      rcases List.mem_cons.1 ha with rfl | hat
      · rw [hfx] at h; simp at h
      · exact ih hat

theorem isSome_nil {s : List Char} {pend caps : List (Nat × List Char)} :
    (mrun [] s pend caps).isSome = true := by
  rw [mrun]; rfl

theorem isSome_lit {l u s : List Char} {ts : List RTok}
    {pend caps : List (Nat × List Char)}
    (he : u = l ++ s) (h : (mrun ts s pend caps).isSome = true) :
    (mrun (.lit l :: ts) u pend caps).isSome = true := by
  subst he
  rw [mrun]
  have hp : l.isPrefixOf (l ++ s) = true := by
    rw [List.isPrefixOf_iff_prefix]; exact l.prefix_append s
  rw [if_pos hp, List.drop_left]
  exact h

theorem isSome_star {q u s : List Char} {p : Char → Bool} {ts : List RTok}
    {pend caps : List (Nat × List Char)}
    (he : u = q ++ s) (hall : q.all p = true)
    (h : (mrun ts s pend caps).isSome = true) :
    (mrun (.star p :: ts) u pend caps).isSome = true := by
  subst he
  rw [mrun]
  exact firstSome_isSome_of_mem (mem_pRests_of_all s hall) h

theorem isSome_plus {q u s : List Char} {p : Char → Bool} {ts : List RTok}
    {pend caps : List (Nat × List Char)}
    (he : u = q ++ s) (hq : q ≠ []) (hall : q.all p = true)
    (h : (mrun ts s pend caps).isSome = true) :
    (mrun (.plus p :: ts) u pend caps).isSome = true := by
  subst he
  cases q with
  | nil => exact absurd rfl hq
  | cons c q' =>
    simp only [List.all_cons, Bool.and_eq_true] at hall
    rw [List.cons_append, mrun, pRestsPlus, if_pos hall.1]
    exact firstSome_isSome_of_mem (mem_pRests_of_all s hall.2) h

theorem isSome_gopen {i : Nat} {s : List Char} {ts : List RTok}
    {pend caps : List (Nat × List Char)}
    (h : (mrun ts s ((i, s) :: pend) caps).isSome = true) :
    (mrun (.gopen i :: ts) s pend caps).isSome = true := by
  rw [mrun]; exact h

theorem isSome_gclose {i : Nat} {so : List Char} {s : List Char} {ts : List RTok}
    {pend caps : List (Nat × List Char)}
    (hg : assocGet pend i = some so)
    (h : (mrun ts s pend ((i, so.take (so.length - s.length)) :: caps)).isSome = true) :
    (mrun (.gclose i :: ts) s pend caps).isSome = true := by
  rw [mrun, hg]
  exact h

theorem isSome_gclose_head {i : Nat} {so : List Char} {s : List Char} {ts : List RTok}
    {pend caps : List (Nat × List Char)}
    (h : (mrun ts s ((i, so) :: pend)
        ((i, so.take (so.length - s.length)) :: caps)).isSome = true) :
    (mrun (.gclose i :: ts) s ((i, so) :: pend) caps).isSome = true := by
  have hg : assocGet ((i, so) :: pend) i = some so := by
    simp [assocGet]
  exact isSome_gclose hg h

/-- If the matcher fails at every suffix, the pattern matches nowhere. -/
theorem matchSomewhere_eq_false {toks : List RTok} {l : List Char}
    (h : ∀ z, z <:+ l → mrun toks z [] [] = none) :
    matchSomewhere toks l = false := by
  induction l with
  | nil => rw [matchSomewhere, h [] List.suffix_rfl]; rfl
  | cons c t ih =>
    rw [matchSomewhere, h (c :: t) List.suffix_rfl]
    simp only [Option.isSome_none, Bool.false_or]
    exact ih fun z hz => h z (hz.trans (List.suffix_cons c t))

end Re

/-! ## List and character helpers for the idempotence proof -/

theorem take_len_append (x y : List Char) :
    (x ++ y).take ((x ++ y).length - y.length) = x := by
  have hl : (x ++ y).length - y.length = x.length := by
    simp [List.length_append]
  rw [hl, List.take_left]

theorem suffix_append_cases {l a b : List Char} (h : l <:+ a ++ b) :
    l <:+ b ∨ ∃ l', l = l' ++ b ∧ l' <:+ a := by
  obtain ⟨w, hw⟩ := h
  rcases List.append_eq_append_iff.1 hw with ⟨m, hm1, hm2⟩ | ⟨m, hm1, hm2⟩
  · exact Or.inr ⟨m, hm2, ⟨w, hm1.symm⟩⟩
  · exact Or.inl ⟨m, hm2.symm⟩

theorem suffix_cons_cases {l : List Char} {c : Char} {m : List Char}
    (h : l <:+ c :: m) : l = c :: m ∨ l <:+ m := by
  obtain ⟨w, hw⟩ := h
  cases w with
  | nil => rw [List.nil_append] at hw; exact Or.inl hw
  | cons x w' =>
    rw [List.cons_append] at hw
    injection hw with _ h2
    exact Or.inr ⟨w', h2⟩

theorem all_of_suffix {p : Char → Bool} {l m : List Char}
    (h : l <:+ m) (hm : m.all p = true) : l.all p = true := by
  obtain ⟨w, rfl⟩ := h
  rw [List.all_append, Bool.and_eq_true] at hm
  exact hm.2

theorem mem_of_suffix {c : Char} {l m : List Char}
    (h : l <:+ m) (hc : c ∈ l) : c ∈ m := by
  obtain ⟨w, rfl⟩ := h
  exact List.mem_append.2 (Or.inr hc)

theorem all_mono {p q : Char → Bool} (himp : ∀ c, p c = true → q c = true) :
    ∀ {l : List Char}, l.all p = true → l.all q = true := by
  intro l
  induction l with
  | nil => intro _; rfl
  | cons c t ih =>
    intro h
    rw [List.all_cons, Bool.and_eq_true] at h ⊢
    exact ⟨himp c h.1, ih h.2⟩

theorem ws_nbrk {c : Char} (h : isPyWS c = true) : (!(c == '\x7d')) = true := by
  cases hc : c == '\x7d'
  · rfl
  · rw [eq_of_beq hc] at h
    exact absurd h (by decide)

theorem word_nbrk {c : Char} (h : isPyWord c = true) : (!(c == '\x7d')) = true := by
  cases hc : c == '\x7d'
  · rfl
  · rw [eq_of_beq hc] at h
    exact absurd h (by decide)

/-- A list with no closing brace, or split at its first closing brace. -/
theorem brk_split (l : List Char) :
    l.all (fun c => !(c == '\x7d')) = true ∨
      ∃ l1 l2, l = l1 ++ '\x7d' :: l2 ∧ l1.all (fun c => !(c == '\x7d')) = true := by
  induction l with
  | nil => exact Or.inl rfl
  | cons c t ih =>
    cases hc : c == '\x7d'
    · rcases ih with h | ⟨l1, l2, heq, hall⟩
      · exact Or.inl (by rw [List.all_cons, hc]; simpa using h)
      · exact Or.inr ⟨c :: l1, l2, by rw [heq]; rfl,
          by rw [List.all_cons, hc]; simpa using hall⟩
    · exact Or.inr ⟨[], t, by rw [eq_of_beq hc]; rfl, rfl⟩

theorem all_nbrk_not_mem {l : List Char}
    (h : l.all (fun c => !(c == '\x7d')) = true) : '\x7d' ∉ l := by
  intro hm
  have := List.all_eq_true.1 h _ hm
  simp at this

/-- Splitting at the first closing brace is unique. -/
theorem brk_eq : ∀ {x1 t1 x2 t2 : List Char},
    x1 ++ '\x7d' :: t1 = x2 ++ '\x7d' :: t2 →
    x1.all (fun c => !(c == '\x7d')) = true →
    x2.all (fun c => !(c == '\x7d')) = true →
    x1 = x2 ∧ t1 = t2 := by
  intro x1
  induction x1 with
  | nil =>
    intro t1 x2 t2 heq h1 h2
    cases x2 with
    | nil =>
      rw [List.nil_append, List.nil_append] at heq
      injection heq with _ h
      exact ⟨rfl, h⟩
    | cons c x2' =>
      rw [List.nil_append, List.cons_append] at heq
      injection heq with hc _
      rw [← hc] at h2
      rw [List.all_cons] at h2
      simp at h2
  | cons c x1' ih =>
    intro t1 x2 t2 heq h1 h2
    cases x2 with
    | nil =>
      rw [List.cons_append, List.nil_append] at heq
      injection heq with hc _
      rw [hc] at h1
      rw [List.all_cons] at h1
      simp at h1
    | cons d x2' =>
      rw [List.cons_append, List.cons_append] at heq
      injection heq with hcd hrest
      rw [List.all_cons, Bool.and_eq_true] at h1 h2
      obtain ⟨he, ht⟩ := ih hrest h1.2 h2.2
      exact ⟨by rw [hcd, he], ht⟩

/-- `str.strip` preserves a character-class invariant. -/
theorem pyStrip_all {p : Char → Bool} {l : List Char} (h : l.all p = true) :
    (pyStrip l).all p = true := by
  unfold pyStrip
  have h1 : (List.dropWhile isPyWS l).all p = true :=
    all_of_suffix (List.dropWhile_suffix _) h
  have h2 : (List.dropWhile isPyWS l).reverse.all p = true := by
    rw [List.all_reverse]; exact h1
  have h3 : (List.dropWhile isPyWS (List.dropWhile isPyWS l).reverse).all p = true :=
    all_of_suffix (List.dropWhile_suffix _) h2
  rw [List.all_reverse]
  exact h3

namespace FixArrowFunctions

/-- Inversion of a successful callback-pattern match: the matched prefix
decomposes into the truncated-callback shape, split at the marker
attribute's closing brace (the first closing brace of the match). -/
theorem mrun_arrow_inv {s r : List Char} {caps : List (Nat × List Char)}
    (h : Re.mrun toks s [] [] = some (r, caps)) :
    ∃ nm w1 w2 ind w3 b,
      s = (nm ++ ("=\x7b()".toList ++ (w1 ++ ('=' :: (w2 ++ ('\n' :: (ind ++
            "hitSlop=\x7bHIT_SLOP".toList))))))) ++
          '\x7d' :: '>' :: (w3 ++ (b ++ ('\x7d' :: r))) ∧
      caps = [(2, b), (1, nm)] ∧
      nm ≠ [] ∧ nm.all isPyWord = true ∧
      w1.all isPyWS = true ∧ w2.all isPyWS = true ∧
      ind ≠ [] ∧ ind.all isPyWS = true ∧ w3.all isPyWS = true ∧
      b ≠ [] ∧ b.all (fun c => !(c == '\x7d')) = true := by
  have h0 := Re.mrun_gopen_inv h
  obtain ⟨nm, s1, hs1, hnm, hnmw, h1⟩ := Re.mrun_plus_inv h0
  obtain ⟨so1, hso1, h2⟩ := Re.mrun_gclose_inv h1
  have hso1' : so1 = s := by
    have hx : (some s : Option (List Char)) = some so1 := hso1
    exact (Option.some.inj hx).symm
  rw [hso1'] at h2
  have hcap1 : s.take (s.length - s1.length) = nm := by
    rw [hs1]; exact take_len_append nm s1
  rw [hcap1] at h2
  obtain ⟨s2, hs2, h3⟩ := Re.mrun_lit_inv h2
  obtain ⟨w1, s3, hs3, hw1, h4⟩ := Re.mrun_star_inv h3
  obtain ⟨s4, hs4, h5⟩ := Re.mrun_lit_inv h4
  obtain ⟨w2, s5, hs5, hw2, h6⟩ := Re.mrun_star_inv h5
  obtain ⟨s6, hs6, h7⟩ := Re.mrun_lit_inv h6
  obtain ⟨ind, s7, hs7, hind, hindw, h8⟩ := Re.mrun_plus_inv h7
  obtain ⟨s8, hs8, h9⟩ := Re.mrun_lit_inv h8
  obtain ⟨w3, s9, hs9, hw3, h10⟩ := Re.mrun_star_inv h9
  have h11 := Re.mrun_gopen_inv h10
  obtain ⟨b, s10, hs10, hb, hbw, h12⟩ := Re.mrun_plus_inv h11
  obtain ⟨so2, hso2, h13⟩ := Re.mrun_gclose_inv h12
  have hso2' : so2 = s9 := by
    have hx : (some s9 : Option (List Char)) = some so2 := hso2
    exact (Option.some.inj hx).symm
  rw [hso2'] at h13
  have hcap2 : s9.take (s9.length - s10.length) = b := by
    rw [hs10]; exact take_len_append b s10
  rw [hcap2] at h13
  obtain ⟨s11, hs11, h14⟩ := Re.mrun_lit_inv h13
  rw [Re.mrun] at h14
  have hpair := Option.some.inj h14
  have hrr : s11 = r := congrArg Prod.fst hpair
  have hcc : ([(2, b), (1, nm)] : List (Nat × List Char)) = caps :=
    congrArg Prod.snd hpair
  refine ⟨nm, w1, w2, ind, w3, b, ?_, hcc.symm, hnm, hnmw, hw1, hw2,
    hind, hindw, hw3, hb, hbw⟩
  have hsplit : ∀ X : List Char,
      "hitSlop=\x7bHIT_SLOP\x7d>".toList ++ X =
      "hitSlop=\x7bHIT_SLOP".toList ++ ('\x7d' :: '>' :: X) := fun _ => rfl
  rw [hs1, hs2, hs3, hs4, hs5, hs6, hs7, hs8, hs9, hs10, hs11, hrr]
  simp only [List.append_assoc, List.singleton_append, List.cons_append,
    List.nil_append, hsplit]

end FixArrowFunctions

namespace FixArrowFunctions

/-- Any text of the truncated-callback shape starts a successful match. -/
theorem arrow_mrun_isSome {nm w1 w2 ind w3 b rest : List Char}
    (hnm : nm ≠ []) (hnmw : nm.all isPyWord = true)
    (hw1 : w1.all isPyWS = true) (hw2 : w2.all isPyWS = true)
    (hind : ind ≠ []) (hindw : ind.all isPyWS = true)
    (hw3 : w3.all isPyWS = true)
    (hb : b ≠ []) (hbw : b.all (fun c => !(c == '\x7d')) = true) :
    (Re.mrun toks (nm ++ ("=\x7b()".toList ++ (w1 ++ ('=' :: (w2 ++ ('\n' :: (ind ++
        ("hitSlop=\x7bHIT_SLOP\x7d>".toList ++ (w3 ++ (b ++ ('\x7d' :: rest)))))))))))
      [] []).isSome = true := by
  apply Re.isSome_gopen
  apply Re.isSome_plus rfl hnm hnmw
  apply Re.isSome_gclose_head
  apply Re.isSome_lit rfl
  apply Re.isSome_star rfl hw1
  apply Re.isSome_lit (show _ = ['='] ++ _ from rfl)
  apply Re.isSome_star rfl hw2
  apply Re.isSome_lit (show _ = ['\n'] ++ _ from rfl)
  apply Re.isSome_plus rfl hind hindw
  apply Re.isSome_lit rfl
  apply Re.isSome_star rfl hw3
  apply Re.isSome_gopen
  apply Re.isSome_plus rfl hb hbw
  apply Re.isSome_gclose_head
  apply Re.isSome_lit (show _ = ['\x7d'] ++ _ from rfl)
  exact Re.isSome_nil

/-- The replacement's tail between its two closing braces. -/
def tailMark : List Char := "\n                hitSlop=\x7bHIT_SLOP".toList

/-- The Callback Repairer's replacement text, split at its first closing
brace. -/
def repBody (nm b : List Char) : List Char :=
  (nm ++ ("=\x7b() => ".toList ++ pyStrip b)) ++ '\x7d' :: (tailMark ++ ['\x7d'])

theorem fix_arrow_eq (nm b w : List Char) :
    fix_arrow [(2, b), (1, nm)] w = repBody nm b := by
  show Re.capGet [(2, b), (1, nm)] 1 ++ "=\x7b() => ".toList ++
      pyStrip (Re.capGet [(2, b), (1, nm)] 2) ++
      "\x7d\n                hitSlop=\x7bHIT_SLOP\x7d".toList = repBody nm b
  have hc1 : Re.capGet [(2, b), (1, nm)] 1 = nm := rfl
  have hc2 : Re.capGet [(2, b), (1, nm)] 2 = b := rfl
  have htl : ("\x7d\n                hitSlop=\x7bHIT_SLOP\x7d".toList : List Char) =
      '\x7d' :: (tailMark ++ ['\x7d']) := rfl
  rw [hc1, hc2, htl, repBody]
  simp [List.append_assoc]

end FixArrowFunctions

theorem all_append_of {p : Char → Bool} {x y : List Char}
    (hx : x.all p = true) (hy : y.all p = true) : (x ++ y).all p = true := by
  rw [List.all_append, Bool.and_eq_true]; exact ⟨hx, hy⟩

theorem all_cons_of {p : Char → Bool} {c : Char} {y : List Char}
    (hc : p c = true) (hy : y.all p = true) : (c :: y).all p = true := by
  rw [List.all_cons, Bool.and_eq_true]; exact ⟨hc, hy⟩

/-- A brace-free nonempty list cannot start with a closing brace. -/
theorem no_brk_head {U V t : List Char}
    (hU : U.all (fun c => !(c == '\x7d')) = true) (hne : U ≠ [])
    (heq : '\x7d' :: t = U ++ V) : False := by
  cases U with
  | nil => exact hne rfl
  | cons c u' =>
    rw [List.cons_append] at heq
    injection heq with hc _
    rw [List.all_cons, Bool.and_eq_true] at hU
    rw [← hc] at hU
    simp at hU

namespace FixArrowFunctions

/-- The part of a matched prefix before its first closing brace is
brace-free. -/
theorem shape_u_nbrk {nm w1 w2 ind : List Char}
    (hnmw : nm.all isPyWord = true) (hw1 : w1.all isPyWS = true)
    (hw2 : w2.all isPyWS = true) (hindw : ind.all isPyWS = true) :
    (nm ++ ("=\x7b()".toList ++ (w1 ++ ('=' :: (w2 ++ ('\n' :: (ind ++
        "hitSlop=\x7bHIT_SLOP".toList))))))).all (fun c => !(c == '\x7d')) = true :=
  all_append_of (all_mono (fun _ h => word_nbrk h) hnmw)
    (all_append_of (by decide)
      (all_append_of (all_mono (fun _ h => ws_nbrk h) hw1)
        (all_cons_of (by decide)
          (all_append_of (all_mono (fun _ h => ws_nbrk h) hw2)
            (all_cons_of (by decide)
              (all_append_of (all_mono (fun _ h => ws_nbrk h) hindw) (by decide)))))))

/-- No nonempty suffix of the Callback Repairer's replacement text can
begin a match, whatever text follows it. -/
theorem no_match_after_brk {nm b : List Char}
    (hnmw : nm.all isPyWord = true)
    (hbw : b.all (fun c => !(c == '\x7d')) = true) :
    ∀ ρ Z, ρ <:+ repBody nm b → ρ ≠ [] → Re.mrun toks (ρ ++ Z) [] [] = none := by
  intro ρ Z hsuf hne
  cases hm : Re.mrun toks (ρ ++ Z) [] [] with
  | none => rfl
  | some res =>
    exfalso
    obtain ⟨r2, caps2⟩ := res
    obtain ⟨nm', w1', w2', ind', w3', b', heq, _, hnm'ne, hnm'w, hw1', hw2',
      hind'ne, hind'w, hw3', hb'ne, hb'w⟩ := mrun_arrow_inv hm
    have hU : (nm' ++ ("=\x7b()".toList ++ (w1' ++ ('=' :: (w2' ++ ('\n' :: (ind' ++
        "hitSlop=\x7bHIT_SLOP".toList))))))).all (fun c => !(c == '\x7d')) = true :=
      shape_u_nbrk hnm'w hw1' hw2' hind'w
    have hUne : nm' ++ ("=\x7b()".toList ++ (w1' ++ ('=' :: (w2' ++ ('\n' :: (ind' ++
        "hitSlop=\x7bHIT_SLOP".toList)))))) ≠ [] := by
      intro hnil
      exact hnm'ne (List.append_eq_nil.1 hnil).1
    have hPfree : (nm ++ ("=\x7b() => ".toList ++ pyStrip b)).all
        (fun c => !(c == '\x7d')) = true :=
      all_append_of (all_mono (fun _ h => word_nbrk h) hnmw)
        (all_append_of (by decide) (pyStrip_all hbw))
    rw [repBody] at hsuf
    rcases suffix_append_cases hsuf with h1 | ⟨ρ', hρeq, hρ'⟩
    · -- the suffix starts inside the closing part of the replacement
      rcases suffix_cons_cases h1 with rfl | h2
      · rw [List.cons_append] at heq
        exact no_brk_head hU hUne heq
      · rcases suffix_append_cases h2 with h3 | ⟨σ, hσeq, hσ⟩
        · rcases suffix_cons_cases h3 with rfl | h4
          · rw [List.singleton_append] at heq
            exact no_brk_head hU hUne heq
          · exact hne (List.suffix_nil.mp h4)
        · subst hσeq
          rw [List.append_assoc, List.singleton_append] at heq
          obtain ⟨hσU, _⟩ := brk_eq heq
            (all_of_suffix hσ (by decide)) hU
          have hparen : '(' ∈ nm' ++ ("=\x7b()".toList ++ (w1' ++ ('=' :: (w2' ++
              ('\n' :: (ind' ++ "hitSlop=\x7bHIT_SLOP".toList)))))) :=
            List.mem_append.2 (Or.inr (List.mem_append.2 (Or.inl (by decide))))
          rw [← hσU] at hparen
          exact absurd (mem_of_suffix hσ hparen) (by decide)
    · -- the suffix covers the whole closing part
      subst hρeq
      rw [List.append_assoc, List.cons_append] at heq
      obtain ⟨hρ'U, hV⟩ := brk_eq heq (all_of_suffix hρ' hPfree) hU
      have htm : (tailMark ++ ['\x7d']) ++ Z =
          '\n' :: (("                hitSlop=\x7bHIT_SLOP".toList ++ ['\x7d']) ++ Z) := by
        rw [show tailMark = '\n' :: "                hitSlop=\x7bHIT_SLOP".toList from rfl]
        rw [List.cons_append, List.cons_append]
      rw [htm] at hV
      injection hV with hc _
      exact absurd hc (by decide)

end FixArrowFunctions

theorem nbrk_eq_false {c : Char} (h : (!(c == '\x7d')) = true) :
    (c == '\x7d') = false := by
  cases hc : c == '\x7d'
  · rfl
  · rw [hc] at h; simp at h

namespace FixArrowFunctions

theorem lit19_split (X : List Char) :
    "hitSlop=\x7bHIT_SLOP\x7d>".toList ++ X =
    "hitSlop=\x7bHIT_SLOP".toList ++ ('\x7d' :: '>' :: X) := rfl

/-- A context that failed to match against the matched text still fails
against its replacement: the rewrite cannot enable a match that begins
strictly before it. -/
theorem transfer_none {nm b whole : List Char}
    (hnmne : nm ≠ []) (hnmw : nm.all isPyWord = true)
    (hbw : b.all (fun c => !(c == '\x7d')) = true)
    (hwh : ∃ tl, whole = nm ++ tl) (hwbr : '\x7d' ∈ whole)
    (y r : List Char)
    (hnone : Re.mrun toks (y ++ (whole ++ r)) [] [] = none) :
    Re.mrun toks (y ++ (repBody nm b ++ r)) [] [] = none := by
  cases hm : Re.mrun toks (y ++ (repBody nm b ++ r)) [] [] with
  | none => rfl
  | some res =>
    exfalso
    obtain ⟨r2, caps2⟩ := res
    obtain ⟨nm', w1', w2', ind', w3', b', heq, _, hnm'ne, hnm'w, hw1', hw2',
      hind'ne, hind'w, hw3', hb'ne, hb'w⟩ := mrun_arrow_inv hm
    have hU : (nm' ++ ("=\x7b()".toList ++ (w1' ++ ('=' :: (w2' ++ ('\n' :: (ind' ++
        "hitSlop=\x7bHIT_SLOP".toList))))))).all (fun c => !(c == '\x7d')) = true :=
      shape_u_nbrk hnm'w hw1' hw2' hind'w
    have hPfree : (nm ++ ("=\x7b() => ".toList ++ pyStrip b)).all
        (fun c => !(c == '\x7d')) = true :=
      all_append_of (all_mono (fun _ h => word_nbrk h) hnmw)
        (all_append_of (by decide) (pyStrip_all hbw))
    rcases brk_split y with hyfree | ⟨y1, y2, hyeq, hy1⟩
    · -- the context has no closing brace: the first brace of the rewritten
      -- text closes the repaired callback and is followed by a newline
      have heq2 : (y ++ (nm ++ ("=\x7b() => ".toList ++ pyStrip b))) ++
          '\x7d' :: ((tailMark ++ ['\x7d']) ++ r) =
          (nm' ++ ("=\x7b()".toList ++ (w1' ++ ('=' :: (w2' ++ ('\n' :: (ind' ++
            "hitSlop=\x7bHIT_SLOP".toList))))))) ++
          '\x7d' :: '>' :: (w3' ++ (b' ++ ('\x7d' :: r2))) := by
        rw [← heq, repBody]
        simp [List.append_assoc]
      obtain ⟨_, hV⟩ := brk_eq heq2 (all_append_of hyfree hPfree) hU
      have htm : (tailMark ++ ['\x7d']) ++ r =
          '\n' :: (("                hitSlop=\x7bHIT_SLOP".toList ++ ['\x7d']) ++ r) := by
        rw [show tailMark = '\n' :: "                hitSlop=\x7bHIT_SLOP".toList from rfl]
        rw [List.cons_append, List.cons_append]
      rw [htm] at hV
      injection hV with hc _
      exact absurd hc (by decide)
    · -- the context contains a closing brace: the match is confined to the
      -- context and the text after the rewrite site, so it already existed
      subst hyeq
      have heq2 : y1 ++ '\x7d' :: (y2 ++ (repBody nm b ++ r)) =
          (nm' ++ ("=\x7b()".toList ++ (w1' ++ ('=' :: (w2' ++ ('\n' :: (ind' ++
            "hitSlop=\x7bHIT_SLOP".toList))))))) ++
          '\x7d' :: '>' :: (w3' ++ (b' ++ ('\x7d' :: r2))) := by
        rw [← heq]
        simp [List.append_assoc]
      obtain ⟨hy1U, hV⟩ := brk_eq heq2 hy1 hU
      cases y2 with
      | nil =>
        rw [List.nil_append] at hV
        cases nm with
        | nil => exact hnmne rfl
        | cons c nmt =>
          simp only [repBody, List.cons_append, List.append_assoc] at hV
          injection hV with hc _
          rw [List.all_cons, Bool.and_eq_true] at hnmw
          have hcw := hnmw.1
          rw [hc] at hcw
          exact absurd hcw (by decide)
      | cons d y2' =>
        rw [List.cons_append] at hV
        injection hV with hd hW
        subst hd
        rcases brk_split (y2' ++ (whole ++ r)) with hfree | ⟨q1, q2, hqeq, hq1⟩
        · exact all_nbrk_not_mem hfree
            (List.mem_append.2 (Or.inr (List.mem_append.2 (Or.inl hwbr))))
        · have hq1ne : q1 ≠ [] := by
            intro h0
            subst h0
            rw [List.nil_append] at hqeq
            cases y2' with
            | nil =>
              rw [List.nil_append] at hqeq
              obtain ⟨tl, htl⟩ := hwh
              rw [htl] at hqeq
              cases nm with
              | nil => exact hnmne rfl
              | cons c nmt =>
                rw [List.cons_append, List.cons_append] at hqeq
                injection hqeq with hc _
                rw [List.all_cons, Bool.and_eq_true] at hnmw
                have hcw := word_nbrk hnmw.1
                rw [hc] at hcw
                simp at hcw
            | cons e y2'' =>
              rw [List.cons_append] at hqeq
              injection hqeq with he _
              rw [List.cons_append] at hW
              have hne' : (e == '\x7d') = false := by
                cases w3' with
                | nil =>
                  rw [List.nil_append] at hW
                  cases b' with
                  | nil => exact absurd rfl hb'ne
                  | cons f bt =>
                    rw [List.cons_append] at hW
                    injection hW with hf _
                    rw [List.all_cons, Bool.and_eq_true] at hb'w
                    rw [hf]
                    exact nbrk_eq_false hb'w.1
                | cons g w3t =>
                  rw [List.cons_append] at hW
                  injection hW with hg _
                  rw [List.all_cons, Bool.and_eq_true] at hw3'
                  rw [hg]
                  exact nbrk_eq_false (ws_nbrk hw3'.1)
              rw [he] at hne'
              simp at hne'
          have hsome : (Re.mrun toks (nm' ++ ("=\x7b()".toList ++ (w1' ++ ('=' ::
              (w2' ++ ('\n' :: (ind' ++ ("hitSlop=\x7bHIT_SLOP\x7d>".toList ++
              ([] ++ (q1 ++ ('\x7d' :: q2)))))))))) ) [] []).isSome = true :=
            arrow_mrun_isSome hnm'ne hnm'w hw1' hw2' hind'ne hind'w rfl hq1ne hq1
          have hEtxt : (y1 ++ '\x7d' :: '>' :: y2') ++ (whole ++ r) =
              nm' ++ ("=\x7b()".toList ++ (w1' ++ ('=' :: (w2' ++ ('\n' :: (ind' ++
                ("hitSlop=\x7bHIT_SLOP\x7d>".toList ++
                  ([] ++ (q1 ++ ('\x7d' :: q2)))))))))) := by
            calc (y1 ++ '\x7d' :: '>' :: y2') ++ (whole ++ r) =
                y1 ++ '\x7d' :: '>' :: (y2' ++ (whole ++ r)) := by
                  simp [List.append_assoc]
              _ = y1 ++ '\x7d' :: '>' :: (q1 ++ ('\x7d' :: q2)) := by rw [hqeq]
              _ = _ := by
                  rw [hy1U, lit19_split]
                  simp [List.append_assoc]
          rw [hEtxt] at hnone
          rw [hnone] at hsome
          simp at hsome

end FixArrowFunctions

namespace FixArrowFunctions

/-- Core induction: if every position of the already-emitted prefix fails
to match against the remaining input, then no position of the emitted
prefix followed by the rewritten remainder matches. -/
theorem subst_out_none : ∀ (fuel : Nat) (s a : List Char),
    s.length < fuel →
    (∀ y, y <:+ a → y ≠ [] → Re.mrun toks (y ++ s) [] [] = none) →
    ∀ z, z <:+ a ++ Re.subst toks fix_arrow fuel s →
      Re.mrun toks z [] [] = none := by
  intro fuel
  induction fuel with
  | zero => intro s a hlen; exact absurd hlen (Nat.not_lt_zero _)
  | succ f ih =>
    intro s a hlen ha z hz
    cases hm : Re.mrun toks s [] [] with
    | none =>
      cases s with
      | nil =>
        rw [Re.subst_nil hm (f + 1), List.append_nil] at hz
        by_cases hzne : z = []
        · subst hzne; exact hm
        · have hfail := ha z hz hzne
          rw [List.append_nil] at hfail
          exact hfail
      | cons c t =>
        rw [Re.subst_none_cons f hm] at hz
        have hz' : z <:+ (a ++ [c]) ++ Re.subst toks fix_arrow f t := by
          rw [List.append_assoc, List.singleton_append]
          exact hz
        refine ih t (a ++ [c]) ?_ ?_ z hz'
        · rw [List.length_cons] at hlen
          omega
        · intro y hy hyne
          rcases suffix_append_cases hy with h1 | ⟨y', hy'eq, hy'⟩
          · rcases suffix_cons_cases h1 with rfl | h2
            · exact hm
            · exact absurd (List.suffix_nil.mp h2) hyne
          · subst hy'eq
            cases y' with
            | nil => exact hm
            | cons d y'' =>
              have hfail := ha (d :: y'') hy' (by simp)
              have hE : ((d :: y'') ++ [c]) ++ t = (d :: y'') ++ (c :: t) := by
                simp [List.append_assoc]
              rw [hE]
              exact hfail
    | some res =>
      obtain ⟨r, caps⟩ := res
      obtain ⟨nm, w1, w2, ind, w3, b, hseq, hcaps, hnm, hnmw, hw1, hw2, hind,
        hindw, hw3, hb, hbw⟩ := mrun_arrow_inv hm
      rw [Re.subst_some f hm, hcaps, fix_arrow_eq] at hz
      have hz' : z <:+ (a ++ repBody nm b) ++ Re.subst toks fix_arrow f r := by
        rw [List.append_assoc]; exact hz
      have hSH : s = ((nm ++ ("=\x7b()".toList ++ (w1 ++ ('=' :: (w2 ++ ('\n' ::
          (ind ++ "hitSlop=\x7bHIT_SLOP".toList))))))) ++
            ('\x7d' :: '>' :: (w3 ++ (b ++ ['\x7d'])))) ++ r := by
        rw [hseq]; simp [List.append_assoc]
      refine ih r (a ++ repBody nm b) ?_ ?_ z hz'
      · have hslen := congrArg List.length hSH
        simp [List.length_append, List.length_cons] at hslen
        omega
      · intro y hy hyne
        rcases suffix_append_cases hy with h1 | ⟨y', hy'eq, hy'⟩
        · exact no_match_after_brk hnmw hbw y r h1 hyne
        · subst hy'eq
          cases y' with
          | nil =>
            exact no_match_after_brk hnmw hbw (repBody nm b) r List.suffix_rfl
              (by simp [repBody])
          | cons d y'' =>
            have hfail := ha (d :: y'') hy' (by simp)
            rw [hSH] at hfail
            rw [List.append_assoc]
            refine transfer_none hnm hnmw hbw ?_ ?_ (d :: y'') r hfail
            · exact ⟨("=\x7b()".toList ++ (w1 ++ ('=' :: (w2 ++ ('\n' :: (ind ++
                "hitSlop=\x7bHIT_SLOP".toList)))))) ++
                  ('\x7d' :: '>' :: (w3 ++ (b ++ ['\x7d']))),
                List.append_assoc _ _ _⟩
            · exact List.mem_append.2 (Or.inr (List.mem_cons_self _ _))

/-- The Callback Repairer's pattern matches nowhere in its own output. -/
theorem fix_file_no_match (c : List Char) :
    Re.matchSomewhere toks (fix_file c) = false := by
  apply Re.matchSomewhere_eq_false
  intro z hz
  refine subst_out_none (c.length + 1) c [] (Nat.lt_succ_self _) ?_ z ?_
  · intro y hy hyne
    exact absurd (List.suffix_nil.mp hy) hyne
  · rw [List.nil_append]
    exact hz

/-- The Callback Repairer is idempotent on every input text. -/
theorem fix_file_idem (c : List Char) :
    fix_file (fix_file c) = fix_file c :=
  Re.reSub_no_match (fix_file_no_match c)

end FixArrowFunctions

/-! ## The claims -/

/-- C1 (counterexample): the four passes are not all idempotent.  The
Declaration Repairer changes the first input again on a second run: the
first run moves the marked import line below a non-import line that
contains the marker substring; the second run then captures that
non-import line and deletes the real marker import.  The Import Repairer
changes the second input again on a second run: the first repair re-emits
the marker import with its captured module path, and that path itself
holds a corrupted-block prefix which, followed by the rest of the file,
forms a fresh match for the second run to rewrite. -/
theorem c1_not_all_passes_idempotent :
    (FixImports.fix_file (FixImports.fix_file
        "import \x7b\nx import \x7b HIT_SLOP \x7d y\nimport \x7b HIT_SLOP \x7d from 'b';\nzzz".toList) ≠
      FixImports.fix_file
        "import \x7b\nx import \x7b HIT_SLOP \x7d y\nimport \x7b HIT_SLOP \x7d from 'b';\nzzz".toList) ∧
    FixAllImports.fix_file (FixAllImports.fix_file
        "import \x7b\nimport \x7b HIT_SLOP \x7d from 'import \x7b\nimport \x7b HIT_SLOP \x7d from ';\n m\n\x7d from 'p';';\n y\n\x7d from 'z';".toList) ≠
      FixAllImports.fix_file
        "import \x7b\nimport \x7b HIT_SLOP \x7d from 'import \x7b\nimport \x7b HIT_SLOP \x7d from ';\n m\n\x7d from 'p';';\n y\n\x7d from 'z';".toList := by
  constructor <;> decide

/-- C1 (amended): the Injector's content transformation and the Callback
Repairer are idempotent on every input: any Injector modification
introduces the substring `HIT_SLOP`, which the eligibility check rejects
on a second application, and the Callback Repairer's pattern can never
match in the Callback Repairer's own output; the Declaration Repairer
and the Import Repairer, by contrast, are not idempotent on all
inputs. -/
theorem c1_injector_and_callback_idempotent :
    (∀ p c, AddHitslop.injector p (AddHitslop.injector p c) =
      AddHitslop.injector p c) ∧
    ∀ c, FixArrowFunctions.fix_file (FixArrowFunctions.fix_file c) =
      FixArrowFunctions.fix_file c := by
  constructor
  · intro p c
    rcases AddHitslop.injector_fix_or_marker p c with h | h
    · rw [h]; exact h
    · exact AddHitslop.injector_fix_of_contains h
  · exact FixArrowFunctions.fix_file_idem

/-- C2 (counterexample): the tag regex falsely matches a longer component
name: `<IconButtonXtra a/>` contains no genuine `IconButton` opening tag,
yet the substitution rewrites it. -/
theorem c2_longer_name_matched :
    AddHitslop.subIconButtons "<IconButtonXtra a/>".toList =
      "<IconButtonXtra a\n                hitSlop=\x7bHIT_SLOP\x7d/>".toList ∧
    AddHitslop.subIconButtons "<IconButtonXtra a/>".toList ≠
      "<IconButtonXtra a/>".toList := by
  decide

/-- C2 (amended): the Injector's tag substitution matches exactly at
occurrences of the literal `<IconButton` (so any tag whose name begins
with that text is matched, not only the exact component name), runs from
the opening bracket through the first closing delimiter, inserts
`hitSlop={HIT_SLOP}` on a new indented line immediately before that
delimiter, skips matches whose tag text already contains `hitSlop`, and
never modifies content with no `<IconButton` occurrence. -/
theorem c2_tag_matching_amended :
    (∀ c, containsSub "<IconButton".toList c = false →
      AddHitslop.subIconButtons c = c) ∧
    (∀ attrs : List Char, attrs.all AddHitslop.notGt = true →
      (containsSub AddHitslop.hitSlopAttr
          ("<IconButton".toList ++ attrs) = false →
        AddHitslop.subIconButtons ("<IconButton".toList ++ attrs ++ ['/', '>']) =
          "<IconButton".toList ++ attrs ++ AddHitslop.hitSlopIns ++ ['/', '>']) ∧
      (containsSub AddHitslop.hitSlopAttr
          ("<IconButton".toList ++ attrs) = true →
        AddHitslop.subIconButtons ("<IconButton".toList ++ attrs ++ ['/', '>']) =
          "<IconButton".toList ++ attrs ++ ['/', '>']) ∧
      (attrs.getLast? ≠ some '/' →
        containsSub AddHitslop.hitSlopAttr
          ("<IconButton".toList ++ attrs) = false →
        AddHitslop.subIconButtons ("<IconButton".toList ++ attrs ++ ['>']) =
          "<IconButton".toList ++ attrs ++ AddHitslop.hitSlopIns ++ ['>'])) :=
  ⟨fun _ h => AddHitslop.subIconButtons_no_tag h,
   fun _ h =>
    ⟨fun hc => AddHitslop.subIconButtons_sc_ins h hc,
     fun hc => AddHitslop.subIconButtons_sc_skip h hc,
     fun hl hc => AddHitslop.subIconButtons_gt_ins h hl hc⟩⟩

/-- C2 (witness): the amended tag-matching theorem at concrete inputs:
a multi-line self-closing tag gains the marker attribute, a tag already
carrying `hitSlop` is kept, and marker-free text passes through. -/
theorem c2_tag_matching_amended_witness :
    AddHitslop.subIconButtons
        ("<IconButton".toList ++ " icon=\x7bx\x7d\n ".toList ++ ['/', '>']) =
      "<IconButton".toList ++ " icon=\x7bx\x7d\n ".toList ++
        AddHitslop.hitSlopIns ++ ['/', '>'] ∧
    AddHitslop.subIconButtons
        ("<IconButton".toList ++ " hitSlop=\x7bq\x7d ".toList ++ ['/', '>']) =
      "<IconButton".toList ++ " hitSlop=\x7bq\x7d ".toList ++ ['/', '>'] ∧
    AddHitslop.subIconButtons ("<IconButton".toList ++ " a".toList ++ ['>']) =
      "<IconButton".toList ++ " a".toList ++ AddHitslop.hitSlopIns ++ ['>'] ∧
    AddHitslop.subIconButtons "plain text, no tag".toList =
      "plain text, no tag".toList :=
  ⟨(c2_tag_matching_amended.2 " icon=\x7bx\x7d\n ".toList (by decide)).1 (by decide),
   (c2_tag_matching_amended.2 " hitSlop=\x7bq\x7d ".toList (by decide)).2.1 (by decide),
   (c2_tag_matching_amended.2 " a".toList (by decide)).2.2 (by decide) (by decide),
   c2_tag_matching_amended.1 "plain text, no tag".toList (by decide)⟩

/-- C3 (counterexample): an eligible file with no import line is not left
unmodified: its `IconButton` tag is still rewritten and the file reported
modified. -/
theorem c3_no_anchor_still_rewrites :
    containsSub AddHitslop.iconButtonMark
      "<IconButton a/> react-native-paper".toList = true ∧
    containsSub AddHitslop.paperMark
      "<IconButton a/> react-native-paper".toList = true ∧
    containsSub AddHitslop.hitSlopMark
      "<IconButton a/> react-native-paper".toList = false ∧
    AddHitslop.lastImportLine
      (splitNl "<IconButton a/> react-native-paper".toList) = none ∧
    (AddHitslop.process_file (AddHitslop.SRC_DIR ++ ["A.tsx"])
        "<IconButton a/> react-native-paper".toList).2 ≠
      "<IconButton a/> react-native-paper".toList := by
  decide

/-- C3 (amended): for an eligible file with no import line no import is
inserted — the output is exactly the tag substitution applied to the
input — and the content is returned byte-identical precisely when the
tag substitution changes nothing. -/
theorem c3_no_anchor_amended (p : List String) (c : List Char)
    (hI : containsSub AddHitslop.iconButtonMark c = true)
    (hR : containsSub AddHitslop.paperMark c = true)
    (hH : containsSub AddHitslop.hitSlopMark c = false)
    (hA : AddHitslop.lastImportLine (splitNl c) = none) :
    (AddHitslop.process_file p c).2 = AddHitslop.subIconButtons c ∧
      ((AddHitslop.process_file p c).2 = c ↔ AddHitslop.subIconButtons c = c) := by
  by_cases hs : AddHitslop.subIconButtons c = c
  · simp [AddHitslop.process_file, hI, hR, hH, hA, hs]
  · simp [AddHitslop.process_file, hI, hR, hH, hA, hs]

/-- C3 (witness): the amended no-anchor theorem at a concrete eligible
file with no import line and no rewriteable tag text. -/
theorem c3_no_anchor_amended_witness :
    (AddHitslop.process_file (AddHitslop.SRC_DIR ++ ["A.tsx"])
        "const a = IconButton; // react-native-paper".toList).2 =
      AddHitslop.subIconButtons
        "const a = IconButton; // react-native-paper".toList ∧
    ((AddHitslop.process_file (AddHitslop.SRC_DIR ++ ["A.tsx"])
        "const a = IconButton; // react-native-paper".toList).2 =
      "const a = IconButton; // react-native-paper".toList ↔
      AddHitslop.subIconButtons
        "const a = IconButton; // react-native-paper".toList =
        "const a = IconButton; // react-native-paper".toList) :=
  c3_no_anchor_amended (AddHitslop.SRC_DIR ++ ["A.tsx"]) _
    (by decide) (by decide) (by decide) (by decide)

/-- C4 (counterexample): the Injector's output is not a function of the
content alone: two files with identical text in different directories
receive different relative import paths. -/
theorem c4_path_dependence :
    AddHitslop.injector (AddHitslop.SRC_DIR ++ ["A.tsx"])
        "import x from 'y';\nIconButton react-native-paper".toList ≠
      AddHitslop.injector (AddHitslop.SRC_DIR ++ ["components", "A.tsx"])
        "import x from 'y';\nIconButton react-native-paper".toList := by
  decide

/-- C4 (amended): each pass's output is a pure function of the input
content and, for the Injector alone, of the file's directory: two files
with byte-identical text in the same directory produce byte-identical
results and reports. -/
theorem c4_directory_determines (p1 p2 : List String) (c : List Char)
    (h : p1.dropLast = p2.dropLast) :
    AddHitslop.process_file p1 c = AddHitslop.process_file p2 c := by
  unfold AddHitslop.process_file AddHitslop.importStmt
    AddHitslop.get_relative_import
  rw [h]

/-- C4 (witness): same directory, different file names, identical
output. -/
theorem c4_directory_determines_witness :
    AddHitslop.process_file (AddHitslop.SRC_DIR ++ ["A.tsx"])
        "import x from 'y';\nIconButton react-native-paper".toList =
      AddHitslop.process_file (AddHitslop.SRC_DIR ++ ["B.tsx"])
        "import x from 'y';\nIconButton react-native-paper".toList :=
  c4_directory_determines (AddHitslop.SRC_DIR ++ ["A.tsx"])
    (AddHitslop.SRC_DIR ++ ["B.tsx"]) _ (by decide)

/-- C5 (counterexample): a file containing `HIT_SLOP` but not the
eligibility substrings is reported ineligible, not skipped-as-patched:
the skip report of the claim is not emitted for every marker-bearing
file. -/
theorem c5_no_skip_report_when_ineligible :
    containsSub AddHitslop.hitSlopMark "HIT_SLOP x".toList = true ∧
    (AddHitslop.process_file (AddHitslop.SRC_DIR ++ ["A.tsx"])
        "HIT_SLOP x".toList).1 ≠ AddHitslop.Report.skipAlreadyPatched := by
  decide

/-- C5 (amended): every file containing `HIT_SLOP` is returned
byte-identical; the skip-already-patched report is emitted exactly when
the file also contains both eligibility substrings. -/
theorem c5_marker_short_circuit (p : List String) (c : List Char)
    (h : containsSub AddHitslop.hitSlopMark c = true) :
    (AddHitslop.process_file p c).2 = c ∧
      ((AddHitslop.process_file p c).1 = AddHitslop.Report.skipAlreadyPatched ↔
        (containsSub AddHitslop.iconButtonMark c = true ∧
          containsSub AddHitslop.paperMark c = true)) := by
  by_cases hI : containsSub AddHitslop.iconButtonMark c = true
  · by_cases hR : containsSub AddHitslop.paperMark c = true
    · simp [AddHitslop.process_file, hI, hR, h]
    · simp only [Bool.not_eq_true] at hR
      simp [AddHitslop.process_file, hI, hR]
  · simp only [Bool.not_eq_true] at hI
    simp [AddHitslop.process_file, hI]

/-- C5 (witness): the marker short-circuit at a marker-bearing eligible
file and at the ineligible file of the counterexample's kind. -/
theorem c5_marker_short_circuit_witness :
    (AddHitslop.process_file (AddHitslop.SRC_DIR ++ ["A.tsx"])
        "IconButton react-native-paper HIT_SLOP".toList).2 =
      "IconButton react-native-paper HIT_SLOP".toList ∧
    ((AddHitslop.process_file (AddHitslop.SRC_DIR ++ ["A.tsx"])
        "IconButton react-native-paper HIT_SLOP".toList).1 =
      AddHitslop.Report.skipAlreadyPatched ↔
      (containsSub AddHitslop.iconButtonMark
          "IconButton react-native-paper HIT_SLOP".toList = true ∧
        containsSub AddHitslop.paperMark
          "IconButton react-native-paper HIT_SLOP".toList = true)) :=
  c5_marker_short_circuit (AddHitslop.SRC_DIR ++ ["A.tsx"]) _ (by decide)

/-- C6: the Import Repairer rewrites the corrupted shape — an import
block's opening brace immediately followed by a one-line `HIT_SLOP`
marker import and then the member list with its closing-from clause — into the
original multi-line import followed by the marker import as a standalone
statement with its original module path; content the pattern does not
match anywhere passes through unchanged. -/
theorem c6_import_repairer :
    (∀ c, Re.matchSomewhere FixAllImports.toks c = false →
      FixAllImports.fix_file c = c) ∧
    (∀ (p1 p2 mm' : List Char) (m0 : Char),
      p1.all (fun c => !FixAllImports.isQuote c) = true → p1 ≠ [] →
      p2.all (fun c => !FixAllImports.isQuote c) = true → p2 ≠ [] →
      isPyWS m0 = false →
      (m0 :: mm').all (fun c => !(c == '\x7d')) = true →
      FixAllImports.fix_file
          (FixAllImports.corruptImport p1 (m0 :: mm') p2) =
        FixAllImports.repairedImport p1 (m0 :: mm') p2) :=
  ⟨fun _ h => Re.reSub_no_match h,
   fun _ _ _ _ hp1 hp1n hp2 hp2n hm0 hmm =>
    FixAllImports.fix_file_corruptImport hp1 hp1n hp2 hp2n hm0 hmm⟩

/-- C6 (witness): the Import Repairer theorem at the concrete corrupted
block the Injector produces, and at a well-formed import it must not
touch. -/
theorem c6_import_repairer_witness :
    FixAllImports.fix_file
        (FixAllImports.corruptImport "./constants/ui".toList
          ('B' :: "utton,\n  Card,".toList) "react-native-paper".toList) =
      FixAllImports.repairedImport "./constants/ui".toList
        ('B' :: "utton,\n  Card,".toList) "react-native-paper".toList ∧
    Re.matchSomewhere FixAllImports.toks
        "import \x7b\n  Button,\n\x7d from 'react-native-paper';".toList =
      false ∧
    FixAllImports.fix_file
        "import \x7b\n  Button,\n\x7d from 'react-native-paper';".toList =
      "import \x7b\n  Button,\n\x7d from 'react-native-paper';".toList :=
  ⟨c6_import_repairer.2 "./constants/ui".toList "react-native-paper".toList
      "utton,\n  Card,".toList 'B' (by decide) (by decide) (by decide)
      (by decide) (by decide) (by decide),
   by decide,
   c6_import_repairer.1 _ (by decide)⟩

/-- C7: the Callback Repairer rewrites the truncated callback shape
`name={() =` newline, indentation, `hitSlop={HIT_SLOP}>`, orphaned body,
closing brace, into the single-line arrow `name={() => body}` with the
marker attribute restored on its own indented line beneath; content the
pattern does not match anywhere passes through unchanged. -/
theorem c7_callback_repairer :
    (∀ c, Re.matchSomewhere FixArrowFunctions.toks c = false →
      FixArrowFunctions.fix_file c = c) ∧
    (∀ (name ind : List Char) (b0 : Char) (body' : List Char),
      name ≠ [] → name.all isPyWord = true →
      ind ≠ [] → ind.all isPyWS = true →
      ind.all (fun x => !(x == '\n')) = true →
      isPyWS b0 = false →
      (b0 :: body').all (fun c => !(c == '\x7d')) = true →
      (∀ a, (b0 :: body').getLast? = some a → isPyWS a = false) →
      FixArrowFunctions.fix_file
          (FixArrowFunctions.corruptArrow name ind (b0 :: body')) =
        FixArrowFunctions.repairedArrow name (b0 :: body')) :=
  ⟨fun _ h => Re.reSub_no_match h,
   fun _ _ _ _ hn hnw hi hiw hin hb0 hbody hlast =>
    FixArrowFunctions.fix_file_corruptArrow hn hnw hi hiw hin hb0 hbody hlast⟩

/-- C7 (witness): the Callback Repairer theorem at the concrete
truncated callback the Injector produces, and at a well-formed callback
it must not touch. -/
theorem c7_callback_repairer_witness :
    FixArrowFunctions.fix_file
        (FixArrowFunctions.corruptArrow "onPress".toList
          "                ".toList ('d' :: "oThing(id)".toList)) =
      FixArrowFunctions.repairedArrow "onPress".toList
        ('d' :: "oThing(id)".toList) ∧
    Re.matchSomewhere FixArrowFunctions.toks
        "onPress=\x7b() => doThing(id)\x7d".toList = false ∧
    FixArrowFunctions.fix_file "onPress=\x7b() => doThing(id)\x7d".toList =
      "onPress=\x7b() => doThing(id)\x7d".toList :=
  ⟨c7_callback_repairer.2 "onPress".toList "                ".toList 'd'
      "oThing(id)".toList (by decide) (by decide) (by decide) (by decide)
      (by decide) (by decide) (by decide) (by decide),
   by decide,
   c7_callback_repairer.1 _ (by decide)⟩

/-- C8: a file whose project-relative path is in the skip list is never
processed, whatever its content. -/
theorem c8_skip_list_exclusion (relComps : List String) (c : List Char)
    (h : String.intercalate "/" relComps ∈ AddHitslop.SKIP_FILES) :
    AddHitslop.mainStep relComps c = c := by
  simp [AddHitslop.mainStep, h]

/-- C8 (witness): the skip list protects `ProjectCard.tsx` even with
otherwise eligible content. -/
theorem c8_skip_list_exclusion_witness :
    String.intercalate "/" ["src", "components", "ProjectCard.tsx"] ∈
      AddHitslop.SKIP_FILES ∧
    AddHitslop.mainStep ["src", "components", "ProjectCard.tsx"]
        "<IconButton a/> react-native-paper".toList =
      "<IconButton a/> react-native-paper".toList :=
  ⟨by decide,
   c8_skip_list_exclusion ["src", "components", "ProjectCard.tsx"] _ (by decide)⟩

/-- C9: on an input with two misplaced marker import lines (one after a
line starting `import`, one after another marker import line) the
Declaration Repairer's output has strictly fewer marker import lines:
two in, one out. -/
theorem c9_second_marker_line_deleted :
    ((splitNl "import \x7b\nimport \x7b HIT_SLOP \x7d from 'a';\nimport \x7b HIT_SLOP \x7d from 'b';\n  x,\n\x7d from 'm';\ncode".toList).filter
        (fun l => containsSub FixImports.markerLine l)).length = 2 ∧
    ((splitNl (FixImports.fix_file
        "import \x7b\nimport \x7b HIT_SLOP \x7d from 'a';\nimport \x7b HIT_SLOP \x7d from 'b';\n  x,\n\x7d from 'm';\ncode".toList)).filter
        (fun l => containsSub FixImports.markerLine l)).length = 1 := by
  decide

/-- C10: the eligibility test is pure substring containment: any file
containing `IconButton` and `react-native-paper` anywhere, lacking
`HIT_SLOP` and having an import line, has the marker import inserted
after its last import line and is reported modified. -/
theorem c10_substring_eligibility (p : List String) (c : List Char) (k : Nat)
    (hI : containsSub AddHitslop.iconButtonMark c = true)
    (hR : containsSub AddHitslop.paperMark c = true)
    (hH : containsSub AddHitslop.hitSlopMark c = false)
    (hA : AddHitslop.lastImportLine (splitNl c) = some k) :
    AddHitslop.process_file p c =
      (AddHitslop.Report.modified,
        AddHitslop.subIconButtons
          (joinNl (insertAt (k + 1) (AddHitslop.importStmt p) (splitNl c)))) := by
  simp [AddHitslop.process_file, hI, hR, hH, hA]

/-- C10 (witness): the substring-eligibility theorem at a file whose
only `IconButton` mention is inside a comment. -/
theorem c10_substring_eligibility_witness :
    AddHitslop.process_file (AddHitslop.SRC_DIR ++ ["A.tsx"])
        "import x from 'y';\n// IconButton react-native-paper\ncode".toList =
      (AddHitslop.Report.modified,
        AddHitslop.subIconButtons
          (joinNl (insertAt 1
            (AddHitslop.importStmt (AddHitslop.SRC_DIR ++ ["A.tsx"]))
            (splitNl
              "import x from 'y';\n// IconButton react-native-paper\ncode".toList)))) :=
  c10_substring_eligibility (AddHitslop.SRC_DIR ++ ["A.tsx"]) _ 0
    (by decide) (by decide) (by decide) (by decide)

end Jarvis
